/-
Verification of the connection plane of the mcp-cli repository.

Each section embeds a region of the TypeScript source as executable Lean
definitions (pure functions become Lean functions, stateful code becomes
explicit state passing, fallible code returns Except/Option) and proves
theorems about them.  Machine integers are modelled as Nat/Int; JavaScript
strings as Lean String/List Char (case folding is modelled for ASCII, which
is what the repository's patterns and names use).
-/
import Mathlib

set_option maxRecDepth 8192

namespace McpCli

/-! ## Tool filtering (src/oauth.ts: matchesPattern, matchesAnyPattern,
    filterTools, isToolAllowed) -/

/-- Character class of the JS regex `.` metacharacter: any character except
the four ECMAScript line terminators.  `matchesPattern` compiles `*` to `.*`
and `?` to `.` without the `s` flag, so these classes exclude line
terminators. -/
def isDotChar (c : Char) : Bool :=
  !(c == '\n' || c == '\r' || c == ' ' || c == ' ')

/-- Consumption loop for the compiled `.*`: try to finish the rest of the
pattern (`f`) at every suffix reachable by eating non-line-terminator
characters. -/
def starLoop (f : List Char → Bool) : List Char → Bool
  | [] => f []
  | d :: s2 => f (d :: s2) || (isDotChar d && starLoop f s2)

/-- Embedding of `matchesPattern(name, pattern)`: the source escapes regex
metacharacters, rewrites `*` to `.*` and `?` to `.`, and runs the anchored
regex `^...$` with the `i` flag.  This recursion is the direct semantics of
that anchored regex: `*` consumes a run of non-line-terminator characters,
`?` one such character, every other pattern character is literal and
compared case-insensitively (ASCII folding). -/
def globMatch : List Char → List Char → Bool
  | [], s => s.isEmpty
  | c :: ps, s =>
    if c = '*' then starLoop (globMatch ps) s
    else
      match s with
      | [] => false
      | d :: s2 =>
        (if c = '?' then isDotChar d else c.toLower == d.toLower) &&
          globMatch ps s2

/-- Embedding of `matchesPattern` at the String level. -/
def matchesPattern (name pattern : String) : Bool :=
  globMatch pattern.toList name.toList

/-- Embedding of `matchesAnyPattern`. -/
def matchesAnyPattern (name : String) (patterns : List String) : Bool :=
  patterns.any (fun pattern => matchesPattern name pattern)

/-- The fields of a server record that tool filtering reads.  In the source
`ServerConfig` is a union with further fields (command/url/env/...); they are
irrelevant to `isToolAllowed`/`filterTools` and the serialized record is
modelled separately as a JSON value for hashing. -/
structure ServerConfig where
  allowedTools : Option (List String) := none
  disabledTools : Option (List String) := none

/-- Embedding of `isToolAllowed(toolName, config)`. -/
def isToolAllowed (toolName : String) (config : ServerConfig) : Bool :=
  let disabledHit :=
    match config.disabledTools with
    | some disabled =>
        decide (disabled.length > 0) && matchesAnyPattern toolName disabled
    | none => false
  if disabledHit then false
  else
    match config.allowedTools with
    | some allowed =>
        if allowed.length > 0 then matchesAnyPattern toolName allowed
        else true
    | none => true

/-- A tool as the filter sees it: the source `filterTools` is generic over
`T extends \x7b name: string \x7d` and only reads `name`. -/
structure ToolInfo where
  name : String
  description : Option String := none

/-- Embedding of `filterTools(tools, config)`; its callback repeats the body
of `isToolAllowed` inline, as in the source. -/
def filterTools (tools : List ToolInfo) (config : ServerConfig) :
    List ToolInfo :=
  tools.filter fun tool =>
    let disabledHit :=
      match config.disabledTools with
      | some disabled =>
          decide (disabled.length > 0) && matchesAnyPattern tool.name disabled
      | none => false
    if disabledHit then false
    else
      match config.allowedTools with
      | some allowed =>
          if allowed.length > 0 then matchesAnyPattern tool.name allowed
          else true
      | none => true

/-- Declarative glob semantics exactly as claim C1 words it: `*` matches any
run of characters, `?` exactly one character, other characters literal,
case-insensitive. -/
inductive GlobSpec : List Char → List Char → Prop where
  | nil : GlobSpec [] []
  | star {ps run s : List Char} :
      GlobSpec ps s → GlobSpec ('*' :: ps) (run ++ s)
  | one {ps : List Char} {c : Char} {s : List Char} :
      GlobSpec ps s → GlobSpec ('?' :: ps) (c :: s)
  | lit {c : Char} {ps : List Char} {d : Char} {s : List Char} :
      c ≠ '*' → c ≠ '?' → c.toLower = d.toLower →
      GlobSpec ps s → GlobSpec (c :: ps) (d :: s)

/-- Declarative semantics of the glob-as-compiled-to-regex: as `GlobSpec`,
except that `*` and `?` only consume non-line-terminator characters (the JS
`.` class). -/
inductive GlobSem : List Char → List Char → Prop where
  | nil : GlobSem [] []
  | star {ps run s : List Char} :
      (∀ c ∈ run, isDotChar c = true) →
      GlobSem ps s → GlobSem ('*' :: ps) (run ++ s)
  | one {ps : List Char} {c : Char} {s : List Char} :
      isDotChar c = true → GlobSem ps s → GlobSem ('?' :: ps) (c :: s)
  | lit {c : Char} {ps : List Char} {d : Char} {s : List Char} :
      c ≠ '*' → c ≠ '?' → c.toLower = d.toLower →
      GlobSem ps s → GlobSem (c :: ps) (d :: s)

theorem globMatch_nil (s : List Char) : globMatch [] s = s.isEmpty := rfl

theorem globMatch_star (ps s : List Char) :
    globMatch ('*' :: ps) s = starLoop (globMatch ps) s := rfl

theorem globMatch_cons {c : Char} (hs : c ≠ '*') (ps s : List Char) :
    globMatch (c :: ps) s =
      (match s with
       | [] => false
       | d :: s2 =>
         (if c = '?' then isDotChar d else c.toLower == d.toLower) &&
           globMatch ps s2) := by
  simp [globMatch, hs]

/-- Characterization of the `.*` loop: it succeeds exactly on strings that
split into a run of dot-characters followed by a suffix accepted by `f`. -/
theorem starLoop_eq_true_iff (f : List Char → Bool) :
    ∀ s, starLoop f s = true ↔
      ∃ run rest, s = run ++ rest ∧ (∀ c ∈ run, isDotChar c = true) ∧
        f rest = true := by
  intro s
  induction s with
  | nil =>
      constructor
      · intro h
        exact ⟨[], [], rfl, by simp, h⟩
      · intro ⟨run, rest, heq, _, hf⟩
        rcases List.append_eq_nil.mp heq.symm with ⟨h1, h2⟩
        subst h1; subst h2
        exact hf
  | cons d s2 ih =>
      constructor
      · intro h
        rw [show starLoop f (d :: s2) =
              (f (d :: s2) || (isDotChar d && starLoop f s2)) from rfl,
            Bool.or_eq_true] at h
        rcases h with h | h
        · exact ⟨[], d :: s2, rfl, by simp, h⟩
        · rw [Bool.and_eq_true] at h
          rcases h with ⟨hd, h2⟩
          rcases (ih).mp h2 with ⟨run, rest, heq, hdot, hf⟩
          refine ⟨d :: run, rest, by simp [heq], ?_, hf⟩
          intro c hc
          rcases List.mem_cons.mp hc with h | h
          · exact h ▸ hd
          · exact hdot c h
      · intro ⟨run, rest, heq, hdot, hf⟩
        rcases run with _ | ⟨r, run2⟩
        · have hrest : rest = d :: s2 := by simpa using heq.symm
          subst hrest
          rw [show starLoop f (d :: s2) =
                (f (d :: s2) || (isDotChar d && starLoop f s2)) from rfl,
              Bool.or_eq_true]
          exact Or.inl hf
        · simp only [List.cons_append, List.cons.injEq] at heq
          rcases heq with ⟨h1, h2⟩
          subst h1
          rw [show starLoop f (d :: s2) =
                (f (d :: s2) || (isDotChar d && starLoop f s2)) from rfl,
              Bool.or_eq_true]
          refine Or.inr ?_
          rw [Bool.and_eq_true]
          refine ⟨hdot d (by simp), ?_⟩
          exact (ih).mpr ⟨run2, rest, h2, fun c hc => hdot c (by simp [hc]), hf⟩

theorem globMatch_complete :
    ∀ {p s : List Char}, GlobSem p s → globMatch p s = true := by
  intro p s h
  induction h with
  | nil => rfl
  | @star ps run s2 hdot _ ih =>
      rw [globMatch_star, starLoop_eq_true_iff]
      exact ⟨run, s2, rfl, hdot, ih⟩
  | one hdot _ ih =>
      rw [globMatch_cons (by decide)]
      simp [hdot, ih]
  | lit hstar hq hlow _ ih =>
      rw [globMatch_cons hstar]
      simp [hq, hlow, ih]

theorem globMatch_sound :
    ∀ n p s, p.length + s.length ≤ n → globMatch p s = true → GlobSem p s := by
  intro n
  induction n with
  | zero =>
      intro p s hlen h
      rcases p with _ | ⟨c, ps⟩
      · rcases s with _ | ⟨d, s2⟩
        · exact GlobSem.nil
        · simp at hlen
      · simp at hlen
  | succ n ih =>
      intro p s hlen h
      rcases p with _ | ⟨c, ps⟩
      · rw [globMatch_nil, List.isEmpty_iff] at h
        subst h
        exact GlobSem.nil
      · by_cases hc : c = '*'
        · subst hc
          rw [globMatch_star, starLoop_eq_true_iff] at h
          rcases h with ⟨run, rest, heq, hdot, hf⟩
          subst heq
          have hrest : GlobSem ps rest := by
            refine ih ps rest ?_ hf
            simp [List.length_append] at hlen ⊢
            omega
          exact GlobSem.star hdot hrest
        · rw [globMatch_cons hc] at h
          rcases s with _ | ⟨d, s2⟩
          · simp at h
          · rw [Bool.and_eq_true] at h
            rcases h with ⟨hd, h2⟩
            have hrec := ih ps s2 (by simp at hlen ⊢; omega) h2
            by_cases hq : c = '?'
            · subst hq
              simp at hd
              exact GlobSem.one hd hrec
            · simp [hq] at hd
              exact GlobSem.lit hc hq hd hrec

/-- The executable matcher agrees with the declarative regex semantics. -/
theorem globMatch_iff_sem (p s : List Char) :
    globMatch p s = true ↔ GlobSem p s :=
  ⟨globMatch_sound (p.length + s.length) p s le_rfl, globMatch_complete⟩

/-- Matching of a tool name against one glob pattern, in the claim's own
semantics (`*` = any run of characters). -/
def SpecMatches (t pattern : String) : Prop :=
  GlobSpec pattern.toList t.toList

/-- Matching of a tool name against one glob pattern, in the semantics the
code actually implements (`*`/`?` skip line terminators). -/
def SemMatches (t pattern : String) : Prop :=
  GlobSem pattern.toList t.toList

/-- The allow/deny rule exactly as claim C1 states it: no disabled pattern
matches, and the allow list is empty or absent or some allowed pattern
matches; glob semantics as claimed (`GlobSpec`). -/
def SpecToolAllowed (t : String) (r : ServerConfig) : Prop :=
  (∀ pat ∈ r.disabledTools.getD [], ¬ SpecMatches t pat) ∧
  (r.allowedTools.getD [] = [] ∨ ∃ pat ∈ r.allowedTools.getD [], SpecMatches t pat)

/-- The allow/deny rule with the glob semantics the code implements. -/
def SemToolAllowed (t : String) (r : ServerConfig) : Prop :=
  (∀ pat ∈ r.disabledTools.getD [], ¬ SemMatches t pat) ∧
  (r.allowedTools.getD [] = [] ∨ ∃ pat ∈ r.allowedTools.getD [], SemMatches t pat)

theorem matchesAny_iff (t : String) (pats : List String) :
    matchesAnyPattern t pats = true ↔ ∃ pat ∈ pats, SemMatches t pat := by
  simp [matchesAnyPattern, matchesPattern, List.any_eq_true, SemMatches,
    globMatch_iff_sem]

theorem isToolAllowed_iff (t : String) (r : ServerConfig) :
    isToolAllowed t r = true ↔ SemToolAllowed t r := by
  rcases r with ⟨a, d⟩
  rcases d with _ | (_ | ⟨q, qs⟩)
  · rcases a with _ | (_ | ⟨p, ps⟩) <;>
      simp [isToolAllowed, SemToolAllowed, matchesAny_iff]
  · rcases a with _ | (_ | ⟨p, ps⟩) <;>
      simp [isToolAllowed, SemToolAllowed, matchesAny_iff]
  · rcases Bool.eq_false_or_eq_true (matchesAnyPattern t (q :: qs)) with hq | hq
    · obtain ⟨pat0, hpat0, hsem0⟩ := (matchesAny_iff t (q :: qs)).mp hq
      constructor
      · intro h
        exfalso
        have hfalse : isToolAllowed t ⟨a, some (q :: qs)⟩ = false := by
          simp [isToolAllowed, hq]
        rw [hfalse] at h
        cases h
      · rintro ⟨hdis, -⟩
        exact absurd hsem0 (hdis pat0 hpat0)
    · have hnex : ∀ pat ∈ q :: qs, ¬ SemMatches t pat := by
        intro pat hpat hsem
        have hT := (matchesAny_iff t (q :: qs)).mpr ⟨pat, hpat, hsem⟩
        rw [hT] at hq
        cases hq
      have hnexq : ¬ SemMatches t q := hnex q (by simp)
      have hnexqs : ∀ pat ∈ qs, ¬ SemMatches t pat := fun pat hp =>
        hnex pat (by simp [hp])
      rcases a with _ | (_ | ⟨p, ps⟩) <;>
        simp [isToolAllowed, SemToolAllowed, matchesAny_iff, hq, hnexq] <;>
        first
        | exact hnexqs
        | exact fun h => hnexqs

/-- Claim C1 (counterexample).  The claim states that `isToolAllowed`
matches with `*` standing for any run of characters.  The source compiles
globs to a JS regex in which `.*` does not cross line terminators, so the
name "a\nb" is rejected by the pattern "a*b" although the claim's glob
semantics accepts it. -/
theorem claim1_counterexample :
    isToolAllowed "a\nb" ⟨some ["a*b"], none⟩ = false ∧
    SpecToolAllowed "a\nb" ⟨some ["a*b"], none⟩ := by
  refine ⟨by decide, ?_, Or.inr ⟨"a*b", by simp, ?_⟩⟩
  · intro pat hpat
    simp [ServerConfig.disabledTools] at hpat
  · show GlobSpec ['a', '*', 'b'] ['a', '\n', 'b']
    exact GlobSpec.lit (by decide) (by decide) rfl
      (@GlobSpec.star ['b'] ['\n'] ['b']
        (GlobSpec.lit (by decide) (by decide) rfl GlobSpec.nil))

/-- Claim C1 (amended).  For every tool name t and server record r,
`isToolAllowed t r` returns true iff t matches no pattern in r's
disabledTools and (allowedTools is empty or absent, or t matches some
pattern of it); disabledTools strictly dominates allowedTools; patterns are
glob-like with all non-wildcard characters literal and comparison
case-insensitive, where `*` matches any run of non-line-terminator
characters and `?` exactly one such character (the compiled regex's `.`
class). -/
theorem claim1_amended (t : String) (r : ServerConfig) :
    isToolAllowed t r = true ↔ SemToolAllowed t r :=
  isToolAllowed_iff t r

/-- Claim C9.  `filterTools` keeps exactly the tools whose names pass
`isToolAllowed`, in the original order, so the bulk filter used by listing
and the single-tool check used by `callTool` are pointwise equivalent. -/
theorem claim9_filter_pointwise (tools : List ToolInfo) (config : ServerConfig) :
    filterTools tools config =
      tools.filter (fun tool => isToolAllowed tool.name config) ∧
    ∀ tool : ToolInfo, tool ∈ filterTools tools config ↔
      tool ∈ tools ∧ isToolAllowed tool.name config = true := by
  have heq : filterTools tools config =
      tools.filter (fun tool => isToolAllowed tool.name config) := rfl
  refine ⟨heq, ?_⟩
  intro tool
  rw [heq, List.mem_filter]

/-! ## Transient-error classification (client.ts: isTransientError).
    The source tests the error's `code` against a fixed list and falls back
    to six regexes over the message.  Each regex is embedded as a scanner
    over the lowercased character list (the `i` flag is ASCII case folding
    here; `\\s` is modelled as the ASCII whitespace class; `\\b` via the
    `[A-Za-z0-9_]` word class). -/

/-- The JS regex word class `\\w` used by `\\b` boundaries. -/
def isWordChar (c : Char) : Bool :=
  c.isAlpha || c.isDigit || c == '_'

/-- ASCII part of the JS regex whitespace class `\\s`. -/
def isSpaceChar (c : Char) : Bool :=
  c == ' ' || c == '\t' || c == '\n' || c == '\r' ||
  c == '\x0b' || c == '\x0c'

/-- The transient HTTP status codes of the message regexes. -/
def statusCodes : List (List Char) :=
  ["502", "503", "504", "429"].map String.toList

/-- The reason phrases of the third message regex. -/
def reasonPhrases : List (List Char) :=
  ["bad gateway", "service unavailable", "gateway timeout",
   "too many requests"].map String.toList

/-- All status/phrase combinations: the regex
`(502|503|504|429)\\s+(bad gateway|service unavailable|gateway timeout|too
many requests)` accepts every pairing, not only the canonical ones. -/
def allPairs : List (List Char × List Char) :=
  statusCodes.flatMap fun st => reasonPhrases.map fun ph => (st, ph)

/-- The canonical status/reason pairings named by the spec. -/
def canonicalPairs : List (List Char × List Char) :=
  statusCodes.zip reasonPhrases

/-- There is no word character at the head of the suffix (the right half of
a `\\b` test after a word character). -/
def noWordHead (s : List Char) : Bool :=
  match s with
  | [] => true
  | c :: _ => !isWordChar c

/-- There is no word character before the scan position (the left half of a
`\\b` test before a word character). -/
def noWordPrev (prev : Option Char) : Bool :=
  match prev with
  | none => true
  | some c => !isWordChar c

/-- One of the status codes sits here, followed by a `\\b` boundary. -/
def statusHere (s : List Char) : Bool :=
  statusCodes.any fun st => st.isPrefixOf s && noWordHead (s.drop st.length)

/-- Skip `\\s*` and require a status code with its trailing boundary.  The
status codes start with a digit, so the maximal space run consumed by
`dropWhile` is exactly what the regex's `\\s*` can consume. -/
def statusAfterSpaces (s : List Char) : Bool :=
  statusHere (s.dropWhile isSpaceChar)

/-- The optional `\\s+code` part of `status(\\s+code)?\\s*(...)`: at least
one space, the literal `code`, then spaces and a status code. -/
def codeThenStatus (s : List Char) : Bool :=
  match s with
  | [] => false
  | c :: _ =>
    isSpaceChar c &&
      ("code".toList.isPrefixOf (s.dropWhile isSpaceChar) &&
        statusAfterSpaces ((s.dropWhile isSpaceChar).drop 4))

/-- Position matcher of the regex
`\\b(http|status(\\s+code)?)\\s*(502|503|504|429)\\b`. -/
def httpStatusAt (prev : Option Char) (s : List Char) : Bool :=
  noWordPrev prev &&
  (("http".toList.isPrefixOf s && statusAfterSpaces (s.drop 4)) ||
   ("status".toList.isPrefixOf s &&
     (statusAfterSpaces (s.drop 6) || codeThenStatus (s.drop 6))))

/-- Existential search of an unanchored regex: try the position matcher `f`
at every position, handing it the previous character for `\\b` tests. -/
def scanList (f : Option Char → List Char → Bool) :
    Option Char → List Char → Bool
  | prev, [] => f prev []
  | prev, c :: rest => f prev (c :: rest) || scanList f (some c) rest

/-- Position matcher of
`\\b(502|503|504|429)\\s+(bad gateway|service unavailable|gateway
timeout|too many requests)`, parameterized by the accepted status/phrase
pairs (the regex itself accepts `allPairs`).  There is no boundary after the
phrase in the source regex. -/
def statusPhraseAt (pairs : List (List Char × List Char))
    (prev : Option Char) (s : List Char) : Bool :=
  noWordPrev prev &&
  pairs.any fun pr =>
    pr.1.isPrefixOf s &&
      ((match s.drop pr.1.length with
        | [] => false
        | c :: _ => isSpaceChar c) &&
        pr.2.isPrefixOf ((s.drop pr.1.length).dropWhile isSpaceChar))

/-- Position matcher of `network\\s*(error|fail|unavailable|timeout)` (no
boundaries in the source regex). -/
def networkAt (s : List Char) : Bool :=
  "network".toList.isPrefixOf s &&
    (["error", "fail", "unavailable", "timeout"].map String.toList).any
      fun w => w.isPrefixOf ((s.drop 7).dropWhile isSpaceChar)

/-- Position matcher of `connection\\s*(reset|refused|timeout)`. -/
def connectionAt (s : List Char) : Bool :=
  "connection".toList.isPrefixOf s &&
    (["reset", "refused", "timeout"].map String.toList).any
      fun w => w.isPrefixOf ((s.drop 10).dropWhile isSpaceChar)

/-- Position matcher of `\\btimeout\\b`. -/
def timeoutAt (prev : Option Char) (s : List Char) : Bool :=
  noWordPrev prev && "timeout".toList.isPrefixOf s && noWordHead (s.drop 7)

/-- The lowercased character list a case-insensitive regex effectively runs
on. -/
def lowerList (m : String) : List Char :=
  m.toList.map Char.toLower

/-- Message fallback of `isTransientError`: the disjunction of the six
regex tests.  The anchored first regex has no `i` flag, but it only
mentions digits and the word class, both invariant under case folding, so
running it on the lowercased list is equivalent. -/
def messageTransient (message : String) : Bool :=
  let lm := lowerList message
  statusHere lm ||
  scanList httpStatusAt none lm ||
  scanList (statusPhraseAt allPairs) none lm ||
  scanList (fun _ s => networkAt s) none lm ||
  scanList (fun _ s => connectionAt s) none lm ||
  scanList timeoutAt none lm

/-- A JavaScript `Error` as `isTransientError` inspects it: its message and
the optional `code` property of `NodeJS.ErrnoException`. -/
structure JsError where
  message : String
  code : Option String := none

/-- The `transientCodes` list of the source. -/
def transientCodes : List String :=
  ["ECONNREFUSED", "ECONNRESET", "ETIMEDOUT", "ENOTFOUND", "EPIPE",
   "ENETUNREACH", "EHOSTUNREACH", "EAI_AGAIN"]

/-- Embedding of `isTransientError(error)`: a truthy `code` in the list
short-circuits to true, otherwise the message regexes decide.  (A falsy or
unlisted code falls through to the message tests, as in the source.) -/
def isTransientError (e : JsError) : Bool :=
  (match e.code with
   | some c => decide (c ≠ "") && transientCodes.contains c
   | none => false) ||
  messageTransient e.message

/-- A run of whitespace characters (what `\\s*`/`\\s+` can consume). -/
def SpaceRun (l : List Char) : Prop := ∀ c ∈ l, isSpaceChar c = true

/-- No word character ends this list (left half of a `\\b` test). -/
def LastNonWord (pre : List Char) : Prop :=
  ∀ c, pre.getLast? = some c → isWordChar c = false

/-- No word character starts this list (right half of a `\\b` test). -/
def HeadNonWord (s : List Char) : Prop :=
  ∀ c, s.head? = some c → isWordChar c = false

/-- Declarative reading of the first regex: a transient status code starts
the message, followed by a boundary. -/
def StartsStatusP (lm : List Char) : Prop :=
  ∃ st ∈ statusCodes, ∃ suf, lm = st ++ suf ∧ HeadNonWord suf

/-- Token alternatives of the second regex: `http`, `status`, or
`status` + spaces + `code`. -/
def TokenShape (tok : List Char) : Prop :=
  tok = "http".toList ∨ tok = "status".toList ∨
  ∃ sp1, sp1 ≠ [] ∧ SpaceRun sp1 ∧
    tok = "status".toList ++ (sp1 ++ "code".toList)

/-- Declarative reading of the second regex: somewhere in the message a
token (after a boundary), optional spaces, a status code, a boundary. -/
def AfterTokenP (lm : List Char) : Prop :=
  ∃ pre tok sp st suf, lm = pre ++ (tok ++ (sp ++ (st ++ suf))) ∧
    LastNonWord pre ∧ TokenShape tok ∧ SpaceRun sp ∧
    st ∈ statusCodes ∧ HeadNonWord suf

/-- Declarative reading of the third regex, parameterized by the accepted
status/phrase pairs: a status code after a boundary, at least one space,
then the phrase (no boundary after it). -/
def StatusPhraseP (pairs : List (List Char × List Char))
    (lm : List Char) : Prop :=
  ∃ pr ∈ pairs, ∃ pre sp suf, lm = pre ++ (pr.1 ++ (sp ++ (pr.2 ++ suf))) ∧
    LastNonWord pre ∧ sp ≠ [] ∧ SpaceRun sp

/-- Declarative reading of `network\\s*(error|fail|unavailable|timeout)`. -/
def NetworkP (lm : List Char) : Prop :=
  ∃ w ∈ (["error", "fail", "unavailable", "timeout"].map String.toList),
    ∃ pre sp suf, lm = pre ++ ("network".toList ++ (sp ++ (w ++ suf))) ∧ SpaceRun sp

/-- Declarative reading of `connection\\s*(reset|refused|timeout)`. -/
def ConnectionP (lm : List Char) : Prop :=
  ∃ w ∈ (["reset", "refused", "timeout"].map String.toList),
    ∃ pre sp suf, lm = pre ++ ("connection".toList ++ (sp ++ (w ++ suf))) ∧
      SpaceRun sp

/-- Declarative reading of `\\btimeout\\b`. -/
def TimeoutP (lm : List Char) : Prop :=
  ∃ pre suf, lm = pre ++ ("timeout".toList ++ suf) ∧
    LastNonWord pre ∧ HeadNonWord suf

/-- The message side of the claimed classification, with the status/phrase
pairing fixed by `pairs`. -/
def TransientMessageP (pairs : List (List Char × List Char))
    (lm : List Char) : Prop :=
  StartsStatusP lm ∨ AfterTokenP lm ∨ StatusPhraseP pairs lm ∨
  NetworkP lm ∨ ConnectionP lm ∨ TimeoutP lm

/-- Claim C2's classification: primary code list, or the secondary message
patterns with each status followed by its canonical reason phrase. -/
def ClaimTransient (e : JsError) : Prop :=
  (∃ c, e.code = some c ∧ c ∈ transientCodes) ∨
  TransientMessageP canonicalPairs (lowerList e.message)

/-- The amended classification: as `ClaimTransient` but any status may be
followed by any of the four reason phrases, as the source regex accepts. -/
def AmendedTransient (e : JsError) : Prop :=
  (∃ c, e.code = some c ∧ c ∈ transientCodes) ∨
  TransientMessageP allPairs (lowerList e.message)

theorem isPrefixOf_eq_true_iff :
    ∀ (p l : List Char), p.isPrefixOf l = true ↔ ∃ r, l = p ++ r := by
  intro p
  induction p with
  | nil =>
      intro l
      constructor
      · intro _; exact ⟨l, rfl⟩
      · intro _
        cases l <;> rfl
  | cons c ps ih =>
      intro l
      cases l with
      | nil =>
          constructor
          · intro h; cases h
          · rintro ⟨r, h⟩; cases h
      | cons d ls =>
          rw [show (c :: ps).isPrefixOf (d :: ls) =
                ((c == d) && ps.isPrefixOf ls) from rfl,
              Bool.and_eq_true, beq_iff_eq, ih ls]
          constructor
          · rintro ⟨rfl, r, rfl⟩
            exact ⟨r, rfl⟩
          · rintro ⟨r, h⟩
            injection h with h1 h2
            exact ⟨h1.symm, r, h2⟩

theorem dropWhile_head_false (p : Char → Bool) (l : List Char) :
    ∀ c, ((l.dropWhile p).head? = some c) → p c = false := by
  induction l with
  | nil => intro c hc; cases hc
  | cons d rest ih =>
      intro c hc
      by_cases hd : p d
      · rw [List.dropWhile_cons] at hc
        simp [hd] at hc
        exact ih c hc
      · rw [List.dropWhile_cons] at hc
        simp [hd] at hc
        rw [← hc]
        simpa using hd

theorem dropWhile_append_of (p : Char → Bool) (sp t : List Char)
    (hsp : ∀ c ∈ sp, p c = true)
    (ht : ∀ c, t.head? = some c → p c = false) :
    (sp ++ t).dropWhile p = t := by
  induction sp with
  | nil =>
      cases t with
      | nil => rfl
      | cons c r =>
          simp only [List.nil_append, List.dropWhile_cons]
          simp [ht c rfl]
  | cons a sp ih =>
      simp only [List.cons_append, List.dropWhile_cons]
      rw [hsp a (by simp)]
      simp only [if_true]
      exact ih (fun c hc => hsp c (by simp [hc]))

theorem takeWhile_spaceRun (l : List Char) :
    SpaceRun (l.takeWhile isSpaceChar) := by
  intro c hc
  exact List.mem_takeWhile_imp hc

/-- The character seen before the scan position: the last of the consumed
part if any, else the scanner's inherited previous character. -/
def lastOr (prev : Option Char) : List Char → Option Char
  | [] => prev
  | c :: pre => lastOr (some c) pre

theorem lastOr_nil (prev : Option Char) : lastOr prev [] = prev := rfl

theorem lastOr_cons (prev : Option Char) (c : Char) (pre : List Char) :
    lastOr prev (c :: pre) = lastOr (some c) pre := rfl

theorem lastOr_eq_getLast (pre : List Char) :
    ∀ prev : Option Char, lastOr prev pre = pre.getLast?.or prev := by
  induction pre with
  | nil => intro prev; rfl
  | cons c pre ih =>
      intro prev
      rw [lastOr_cons, ih (some c)]
      cases hp : pre.getLast? with
      | none =>
          have hnil : pre = [] := List.getLast?_eq_none_iff.mp hp
          subst hnil
          rfl
      | some d =>
          rcases pre with _ | ⟨e, pre2⟩
          · cases hp
          · rw [List.getLast?_cons_cons, hp]
            rfl

theorem scanList_iff (f : Option Char → List Char → Bool) :
    ∀ (l : List Char) (prev : Option Char),
      scanList f prev l = true ↔
        ∃ pre suf, l = pre ++ suf ∧ f (lastOr prev pre) suf = true := by
  intro l
  induction l with
  | nil =>
      intro prev
      constructor
      · intro h
        exact ⟨[], [], rfl, by simpa [lastOr_nil] using h⟩
      · rintro ⟨pre, suf, heq, hf⟩
        rcases List.append_eq_nil.mp heq.symm with ⟨rfl, rfl⟩
        simpa [lastOr_nil] using hf
  | cons c rest ih =>
      intro prev
      rw [show scanList f prev (c :: rest) =
            (f prev (c :: rest) || scanList f (some c) rest) from rfl,
          Bool.or_eq_true, ih (some c)]
      constructor
      · rintro (h | ⟨pre, suf, heq, hf⟩)
        · exact ⟨[], c :: rest, rfl, by simpa [lastOr_nil] using h⟩
        · exact ⟨c :: pre, suf, by simp [heq], by rwa [lastOr_cons]⟩
      · rintro ⟨pre, suf, heq, hf⟩
        rcases pre with _ | ⟨c2, pre2⟩
        · have hsuf : suf = c :: rest := by simpa using heq.symm
          subst hsuf
          exact Or.inl (by simpa [lastOr_nil] using hf)
        · simp only [List.cons_append, List.cons.injEq] at heq
          rcases heq with ⟨h1, h2⟩
          subst h1
          refine Or.inr ⟨pre2, suf, h2, ?_⟩
          rwa [lastOr_cons] at hf

theorem noWordHead_iff (s : List Char) :
    noWordHead s = true ↔ HeadNonWord s := by
  cases s with
  | nil => simp [noWordHead, HeadNonWord]
  | cons c r =>
      simp only [noWordHead, HeadNonWord, List.head?_cons,
        Option.some.injEq, Bool.not_eq_true']
      constructor
      · intro h c2 hc2
        exact hc2 ▸ h
      · intro h
        exact h c rfl

theorem noWordPrev_lastOr (pre : List Char) :
    noWordPrev (lastOr none pre) = true ↔ LastNonWord pre := by
  rw [lastOr_eq_getLast pre none]
  cases h : pre.getLast? with
  | none =>
      constructor
      · intro _ c hc
        rw [h] at hc
        cases hc
      · intro _
        rfl
  | some c =>
      constructor
      · intro hc c2 hc2
        rw [h] at hc2
        injection hc2 with hc2
        subst hc2
        have hb : (!isWordChar c) = true := hc
        simpa using hb
      · intro hall
        show (!isWordChar c) = true
        simp [hall c h]

theorem head_not_of_cons {p : Char → Bool} {d : Char} (hd : p d = false)
    (r suf : List Char) :
    ∀ c, (((d :: r) ++ suf).head? = some c) → p c = false := by
  intro c hc
  have h0 : (((d :: r) ++ suf)).head? = some d := rfl
  rw [h0] at hc
  injection hc with hc
  exact hc ▸ hd

theorem statusCodes_shape :
    ∀ st ∈ statusCodes,
      (match st with
       | [] => false
       | d :: _ => !isSpaceChar d && isWordChar d) = true := by
  decide

theorem reasonPhrases_shape :
    ∀ ph ∈ reasonPhrases,
      (match ph with
       | [] => false
       | d :: _ => !isSpaceChar d) = true := by
  decide

theorem netWords_shape :
    ∀ w ∈ (["error", "fail", "unavailable", "timeout"].map String.toList),
      (match w with
       | [] => false
       | d :: _ => !isSpaceChar d) = true := by
  decide

theorem connWords_shape :
    ∀ w ∈ (["reset", "refused", "timeout"].map String.toList),
      (match w with
       | [] => false
       | d :: _ => !isSpaceChar d) = true := by
  decide

theorem statusHere_iff (s : List Char) :
    statusHere s = true ↔
      ∃ st ∈ statusCodes, ∃ suf, s = st ++ suf ∧ HeadNonWord suf := by
  unfold statusHere
  rw [List.any_eq_true]
  constructor
  · rintro ⟨st, hmem, h⟩
    rw [Bool.and_eq_true] at h
    rcases h with ⟨hp, hnw⟩
    rcases (isPrefixOf_eq_true_iff st s).mp hp with ⟨suf, rfl⟩
    rw [List.drop_left] at hnw
    exact ⟨st, hmem, suf, rfl, (noWordHead_iff suf).mp hnw⟩
  · rintro ⟨st, hmem, suf, rfl, hnw⟩
    refine ⟨st, hmem, ?_⟩
    rw [Bool.and_eq_true]
    refine ⟨(isPrefixOf_eq_true_iff st _).mpr ⟨suf, rfl⟩, ?_⟩
    rw [List.drop_left]
    exact (noWordHead_iff suf).mpr hnw

theorem statusAfterSpaces_iff (u : List Char) :
    statusAfterSpaces u = true ↔
      ∃ sp st suf, u = sp ++ (st ++ suf) ∧ SpaceRun sp ∧
        st ∈ statusCodes ∧ HeadNonWord suf := by
  unfold statusAfterSpaces
  rw [statusHere_iff]
  constructor
  · rintro ⟨st, hmem, suf, hdw, hnw⟩
    refine ⟨u.takeWhile isSpaceChar, st, suf, ?_, takeWhile_spaceRun u,
      hmem, hnw⟩
    conv_lhs => rw [← List.takeWhile_append_dropWhile isSpaceChar u]
    rw [hdw]
  · rintro ⟨sp, st, suf, rfl, hsp, hmem, hnw⟩
    have hdw : ((sp ++ (st ++ suf)).dropWhile isSpaceChar) = st ++ suf := by
      refine dropWhile_append_of isSpaceChar sp (st ++ suf) hsp ?_
      rcases st with _ | ⟨d, r⟩
      · exact absurd (statusCodes_shape [] hmem) (by simp)
      · have h2 : (!isSpaceChar d && isWordChar d) = true :=
          statusCodes_shape (d :: r) hmem
        rw [Bool.and_eq_true] at h2
        exact head_not_of_cons (by simpa using h2.1) r suf
    rw [hdw]
    exact ⟨st, hmem, suf, rfl, hnw⟩

theorem drop_len_append {n : Nat} (a b : List Char) (h : a.length = n) :
    (a ++ b).drop n = b := by
  subst h
  exact List.drop_left a b

theorem httpStatusAt_pos_iff (prev : Option Char) (s : List Char) :
    httpStatusAt prev s = true ↔
      (noWordPrev prev = true ∧
        ∃ tok sp st suf, s = tok ++ (sp ++ (st ++ suf)) ∧ TokenShape tok ∧
          SpaceRun sp ∧ st ∈ statusCodes ∧ HeadNonWord suf) := by
  unfold httpStatusAt
  rw [Bool.and_eq_true, Bool.or_eq_true]
  apply and_congr_right
  intro _
  constructor
  · rintro (hA | hB)
    · rw [Bool.and_eq_true] at hA
      rcases hA with ⟨hp, hrest⟩
      rcases (isPrefixOf_eq_true_iff _ _).mp hp with ⟨r, rfl⟩
      have hdrop : ("http".toList ++ r).drop 4 = r := drop_len_append _ _ (by decide)
      rw [hdrop] at hrest
      rcases (statusAfterSpaces_iff r).mp hrest with
        ⟨sp, st, suf, rfl, hsp, hmem, hnw⟩
      exact ⟨"http".toList, sp, st, suf, rfl, Or.inl rfl, hsp, hmem, hnw⟩
    · rw [Bool.and_eq_true] at hB
      rcases hB with ⟨hp, hrest⟩
      rcases (isPrefixOf_eq_true_iff _ _).mp hp with ⟨r, rfl⟩
      have hdrop : ("status".toList ++ r).drop 6 = r := drop_len_append _ _ (by decide)
      rw [hdrop, Bool.or_eq_true] at hrest
      rcases hrest with h1 | h2
      · rcases (statusAfterSpaces_iff r).mp h1 with
          ⟨sp, st, suf, rfl, hsp, hmem, hnw⟩
        exact ⟨"status".toList, sp, st, suf, rfl, Or.inr (Or.inl rfl),
          hsp, hmem, hnw⟩
      · rcases r with _ | ⟨c, r2⟩
        · cases h2
        · have h2b : (isSpaceChar c &&
              ("code".toList.isPrefixOf ((c :: r2).dropWhile isSpaceChar) &&
                statusAfterSpaces
                  (((c :: r2).dropWhile isSpaceChar).drop 4))) = true := h2
          rw [Bool.and_eq_true] at h2b
          rcases h2b with ⟨hc, hBC⟩
          rw [Bool.and_eq_true] at hBC
          rcases hBC with ⟨hcode, hafter⟩
          rcases (isPrefixOf_eq_true_iff _ _).mp hcode with ⟨r3, hdw⟩
          have hdrop4 : ("code".toList ++ r3).drop 4 = r3 := drop_len_append _ _ (by decide)
          rw [hdw, hdrop4] at hafter
          rcases (statusAfterSpaces_iff r3).mp hafter with
            ⟨sp, st, suf, rfl, hsp, hmem, hnw⟩
          have htw : (c :: r2).takeWhile isSpaceChar =
              c :: r2.takeWhile isSpaceChar := by
            rw [List.takeWhile_cons]
            simp [hc]
          have hsplit : (c :: r2) =
              (c :: r2.takeWhile isSpaceChar) ++
                ("code".toList ++ (sp ++ (st ++ suf))) := by
            conv_lhs =>
              rw [← List.takeWhile_append_dropWhile isSpaceChar (c :: r2)]
            rw [htw, hdw]
          refine ⟨"status".toList ++
              ((c :: r2.takeWhile isSpaceChar) ++ "code".toList),
            sp, st, suf, ?_, ?_, hsp, hmem, hnw⟩
          · rw [show "status".toList ++ (c :: r2) =
                "status".toList ++
                  ((c :: r2.takeWhile isSpaceChar) ++
                    ("code".toList ++ (sp ++ (st ++ suf)))) from by rw [← hsplit]]
            simp [List.append_assoc]
          · refine Or.inr (Or.inr ⟨c :: r2.takeWhile isSpaceChar,
              by simp, ?_, by simp [List.append_assoc]⟩)
            intro x hx
            rcases List.mem_cons.mp hx with rfl | hx2
            · exact hc
            · exact takeWhile_spaceRun r2 x hx2
  · rintro ⟨tok, sp, st, suf, rfl, htok, hsp, hmem, hnw⟩
    rcases htok with rfl | rfl | ⟨sp1, hne, hsp1, rfl⟩
    · refine Or.inl ?_
      rw [Bool.and_eq_true]
      refine ⟨(isPrefixOf_eq_true_iff _ _).mpr ⟨_, rfl⟩, ?_⟩
      have hdrop : ("http".toList ++ (sp ++ (st ++ suf))).drop 4 =
          sp ++ (st ++ suf) := drop_len_append _ _ (by decide)
      rw [hdrop]
      exact (statusAfterSpaces_iff _).mpr ⟨sp, st, suf, rfl, hsp, hmem, hnw⟩
    · refine Or.inr ?_
      rw [Bool.and_eq_true]
      refine ⟨(isPrefixOf_eq_true_iff _ _).mpr ⟨_, rfl⟩, ?_⟩
      have hdrop : ("status".toList ++ (sp ++ (st ++ suf))).drop 6 =
          sp ++ (st ++ suf) := drop_len_append _ _ (by decide)
      rw [hdrop, Bool.or_eq_true]
      exact Or.inl ((statusAfterSpaces_iff _).mpr
        ⟨sp, st, suf, rfl, hsp, hmem, hnw⟩)
    · refine Or.inr ?_
      rw [Bool.and_eq_true]
      have hnorm : ("status".toList ++ (sp1 ++ "code".toList)) ++
          (sp ++ (st ++ suf)) =
          "status".toList ++ (sp1 ++ ("code".toList ++ (sp ++ (st ++ suf)))) := by
        simp [List.append_assoc]
      rw [hnorm]
      refine ⟨(isPrefixOf_eq_true_iff _ _).mpr ⟨_, rfl⟩, ?_⟩
      have hdrop : ("status".toList ++
          (sp1 ++ ("code".toList ++ (sp ++ (st ++ suf))))).drop 6 =
          sp1 ++ ("code".toList ++ (sp ++ (st ++ suf))) := drop_len_append _ _ (by decide)
      rw [hdrop, Bool.or_eq_true]
      refine Or.inr ?_
      rcases sp1 with _ | ⟨e, sp1b⟩
      · exact absurd rfl hne
      · have hdw : ((e :: sp1b) ++
            ("code".toList ++ (sp ++ (st ++ suf)))).dropWhile isSpaceChar =
            "code".toList ++ (sp ++ (st ++ suf)) :=
          dropWhile_append_of isSpaceChar (e :: sp1b) _ hsp1
            (head_not_of_cons (by decide) "ode".toList (sp ++ (st ++ suf)))
        show (isSpaceChar e &&
            ("code".toList.isPrefixOf
                (((e :: sp1b) ++
                  ("code".toList ++ (sp ++ (st ++ suf)))).dropWhile
                  isSpaceChar) &&
              statusAfterSpaces
                ((((e :: sp1b) ++
                  ("code".toList ++ (sp ++ (st ++ suf)))).dropWhile
                  isSpaceChar).drop 4))) = true
        rw [Bool.and_eq_true]
        refine ⟨hsp1 e (by simp), ?_⟩
        rw [Bool.and_eq_true, hdw]
        have hdrop4 : ("code".toList ++ (sp ++ (st ++ suf))).drop 4 =
            sp ++ (st ++ suf) := drop_len_append _ _ (by decide)
        rw [hdrop4]
        exact ⟨(isPrefixOf_eq_true_iff _ _).mpr ⟨_, rfl⟩,
          (statusAfterSpaces_iff _).mpr ⟨sp, st, suf, rfl, hsp, hmem, hnw⟩⟩

theorem afterTokenP_iff (l : List Char) :
    scanList httpStatusAt none l = true ↔ AfterTokenP l := by
  rw [scanList_iff]
  constructor
  · rintro ⟨pre, suf0, rfl, hf⟩
    rw [httpStatusAt_pos_iff] at hf
    rcases hf with ⟨hprev, tok, sp, st, suf, rfl, htok, hsp, hmem, hnw⟩
    exact ⟨pre, tok, sp, st, suf, rfl, (noWordPrev_lastOr pre).mp hprev,
      htok, hsp, hmem, hnw⟩
  · rintro ⟨pre, tok, sp, st, suf, rfl, hpre, htok, hsp, hmem, hnw⟩
    exact ⟨pre, tok ++ (sp ++ (st ++ suf)), rfl,
      (httpStatusAt_pos_iff _ _).mpr ⟨(noWordPrev_lastOr pre).mpr hpre,
        tok, sp, st, suf, rfl, htok, hsp, hmem, hnw⟩⟩

theorem statusPhrase_scan_iff (pairs : List (List Char × List Char))
    (hshape : ∀ pr ∈ pairs,
      (match pr.2 with
       | [] => false
       | d :: _ => !isSpaceChar d) = true)
    (l : List Char) :
    scanList (statusPhraseAt pairs) none l = true ↔ StatusPhraseP pairs l := by
  rw [scanList_iff]
  constructor
  · rintro ⟨pre, suf0, rfl, hf⟩
    unfold statusPhraseAt at hf
    rw [Bool.and_eq_true, List.any_eq_true] at hf
    rcases hf with ⟨hprev, pr, hpr, hbody⟩
    rw [Bool.and_eq_true] at hbody
    rcases hbody with ⟨hp1, hbody⟩
    rcases (isPrefixOf_eq_true_iff _ _).mp hp1 with ⟨r, rfl⟩
    rw [Bool.and_eq_true] at hbody
    rcases hbody with ⟨hhead, hp2⟩
    rw [List.drop_left] at hhead hp2
    rcases hr : r with _ | ⟨c, r2⟩
    · rw [hr] at hhead
      cases hhead
    · rw [hr] at hhead hp2
      have hheadc : isSpaceChar c = true := hhead
      rcases (isPrefixOf_eq_true_iff _ _).mp hp2 with ⟨suf, hdw⟩
      have htw : (c :: r2).takeWhile isSpaceChar =
          c :: r2.takeWhile isSpaceChar := by
        rw [List.takeWhile_cons]
        simp [hheadc]
      have hsplit : (c :: r2) =
          (c :: r2.takeWhile isSpaceChar) ++ (pr.2 ++ suf) := by
        conv_lhs =>
          rw [← List.takeWhile_append_dropWhile isSpaceChar (c :: r2)]
        rw [htw, hdw]
      refine ⟨pr, hpr, pre, c :: r2.takeWhile isSpaceChar, suf, ?_,
        (noWordPrev_lastOr pre).mp hprev, by simp, ?_⟩
      · rw [hsplit]
      · intro x hx
        rcases List.mem_cons.mp hx with rfl | hx2
        · exact hheadc
        · exact takeWhile_spaceRun r2 x hx2
  · rintro ⟨pr, hpr, pre, sp, suf, rfl, hpre, hne, hsp⟩
    refine ⟨pre, pr.1 ++ (sp ++ (pr.2 ++ suf)), rfl, ?_⟩
    unfold statusPhraseAt
    rw [Bool.and_eq_true, List.any_eq_true]
    refine ⟨(noWordPrev_lastOr pre).mpr hpre, pr, hpr, ?_⟩
    rw [Bool.and_eq_true]
    refine ⟨(isPrefixOf_eq_true_iff _ _).mpr ⟨_, rfl⟩, ?_⟩
    rw [Bool.and_eq_true, List.drop_left]
    rcases sp with _ | ⟨e, spb⟩
    · exact absurd rfl hne
    · have hph : ∀ c, ((pr.2 ++ suf).head? = some c) → isSpaceChar c = false := by
        have hsh := hshape pr hpr
        rcases hp2s : pr.2 with _ | ⟨d, r⟩
        · rw [hp2s] at hsh
          exact absurd hsh (by simp)
        · rw [hp2s] at hsh
          have hd : (!isSpaceChar d) = true := hsh
          exact head_not_of_cons (by simpa using hd) r suf
      have hdw : ((e :: spb) ++ (pr.2 ++ suf)).dropWhile isSpaceChar =
          pr.2 ++ suf :=
        dropWhile_append_of isSpaceChar (e :: spb) _ hsp hph
      constructor
      · show isSpaceChar e = true
        exact hsp e (by simp)
      · rw [hdw]
        exact (isPrefixOf_eq_true_iff _ _).mpr ⟨suf, rfl⟩

theorem networkP_iff (l : List Char) :
    scanList (fun _ s => networkAt s) none l = true ↔ NetworkP l := by
  rw [scanList_iff]
  constructor
  · rintro ⟨pre, suf0, rfl, hf⟩
    unfold networkAt at hf
    rw [Bool.and_eq_true] at hf
    rcases hf with ⟨hp, hany⟩
    rcases (isPrefixOf_eq_true_iff _ _).mp hp with ⟨r, rfl⟩
    have hdrop : ("network".toList ++ r).drop 7 = r :=
      drop_len_append _ _ (by decide)
    rw [hdrop, List.any_eq_true] at hany
    rcases hany with ⟨w, hw, hwp⟩
    rcases (isPrefixOf_eq_true_iff _ _).mp hwp with ⟨suf, hdw⟩
    have hsplit : r = r.takeWhile isSpaceChar ++ (w ++ suf) := by
      conv_lhs => rw [← List.takeWhile_append_dropWhile isSpaceChar r]
      rw [hdw]
    refine ⟨w, hw, pre, r.takeWhile isSpaceChar, suf, ?_,
      takeWhile_spaceRun r⟩
    conv_lhs => rw [hsplit]
  · rintro ⟨w, hw, pre, sp, suf, rfl, hsp⟩
    refine ⟨pre, "network".toList ++ (sp ++ (w ++ suf)), rfl, ?_⟩
    unfold networkAt
    rw [Bool.and_eq_true]
    refine ⟨(isPrefixOf_eq_true_iff _ _).mpr ⟨_, rfl⟩, ?_⟩
    have hdrop : ("network".toList ++ (sp ++ (w ++ suf))).drop 7 =
        sp ++ (w ++ suf) := drop_len_append _ _ (by decide)
    rw [hdrop, List.any_eq_true]
    refine ⟨w, hw, ?_⟩
    have hwh : ∀ c, ((w ++ suf).head? = some c) → isSpaceChar c = false := by
      have hsh := netWords_shape w hw
      rcases hws : w with _ | ⟨d, r⟩
      · rw [hws] at hsh
        exact absurd hsh (by simp)
      · rw [hws] at hsh
        have hd : (!isSpaceChar d) = true := hsh
        exact head_not_of_cons (by simpa using hd) r suf
    rw [dropWhile_append_of isSpaceChar sp _ hsp hwh]
    exact (isPrefixOf_eq_true_iff _ _).mpr ⟨suf, rfl⟩

theorem connectionP_iff (l : List Char) :
    scanList (fun _ s => connectionAt s) none l = true ↔ ConnectionP l := by
  rw [scanList_iff]
  constructor
  · rintro ⟨pre, suf0, rfl, hf⟩
    unfold connectionAt at hf
    rw [Bool.and_eq_true] at hf
    rcases hf with ⟨hp, hany⟩
    rcases (isPrefixOf_eq_true_iff _ _).mp hp with ⟨r, rfl⟩
    have hdrop : ("connection".toList ++ r).drop 10 = r :=
      drop_len_append _ _ (by decide)
    rw [hdrop, List.any_eq_true] at hany
    rcases hany with ⟨w, hw, hwp⟩
    rcases (isPrefixOf_eq_true_iff _ _).mp hwp with ⟨suf, hdw⟩
    have hsplit : r = r.takeWhile isSpaceChar ++ (w ++ suf) := by
      conv_lhs => rw [← List.takeWhile_append_dropWhile isSpaceChar r]
      rw [hdw]
    refine ⟨w, hw, pre, r.takeWhile isSpaceChar, suf, ?_,
      takeWhile_spaceRun r⟩
    conv_lhs => rw [hsplit]
  · rintro ⟨w, hw, pre, sp, suf, rfl, hsp⟩
    refine ⟨pre, "connection".toList ++ (sp ++ (w ++ suf)), rfl, ?_⟩
    unfold connectionAt
    rw [Bool.and_eq_true]
    refine ⟨(isPrefixOf_eq_true_iff _ _).mpr ⟨_, rfl⟩, ?_⟩
    have hdrop : ("connection".toList ++ (sp ++ (w ++ suf))).drop 10 =
        sp ++ (w ++ suf) := drop_len_append _ _ (by decide)
    rw [hdrop, List.any_eq_true]
    refine ⟨w, hw, ?_⟩
    have hwh : ∀ c, ((w ++ suf).head? = some c) → isSpaceChar c = false := by
      have hsh := connWords_shape w hw
      rcases hws : w with _ | ⟨d, r⟩
      · rw [hws] at hsh
        exact absurd hsh (by simp)
      · rw [hws] at hsh
        have hd : (!isSpaceChar d) = true := hsh
        exact head_not_of_cons (by simpa using hd) r suf
    rw [dropWhile_append_of isSpaceChar sp _ hsp hwh]
    exact (isPrefixOf_eq_true_iff _ _).mpr ⟨suf, rfl⟩

theorem timeoutP_iff (l : List Char) :
    scanList timeoutAt none l = true ↔ TimeoutP l := by
  rw [scanList_iff]
  constructor
  · rintro ⟨pre, suf0, rfl, hf⟩
    unfold timeoutAt at hf
    rw [Bool.and_eq_true] at hf
    rcases hf with ⟨hf1, hnw⟩
    rw [Bool.and_eq_true] at hf1
    rcases hf1 with ⟨hprev, hp⟩
    rcases (isPrefixOf_eq_true_iff _ _).mp hp with ⟨r, rfl⟩
    have hdrop : ("timeout".toList ++ r).drop 7 = r :=
      drop_len_append _ _ (by decide)
    rw [hdrop] at hnw
    exact ⟨pre, r, rfl, (noWordPrev_lastOr pre).mp hprev,
      (noWordHead_iff r).mp hnw⟩
  · rintro ⟨pre, suf, rfl, hpre, hnw⟩
    refine ⟨pre, "timeout".toList ++ suf, rfl, ?_⟩
    unfold timeoutAt
    rw [Bool.and_eq_true]
    refine ⟨?_, ?_⟩
    · rw [Bool.and_eq_true]
      exact ⟨(noWordPrev_lastOr pre).mpr hpre,
        (isPrefixOf_eq_true_iff _ _).mpr ⟨_, rfl⟩⟩
    · have hdrop : ("timeout".toList ++ suf).drop 7 = suf :=
        drop_len_append _ _ (by decide)
      rw [hdrop]
      exact (noWordHead_iff suf).mpr hnw

theorem startsStatusP_iff (lm : List Char) :
    statusHere lm = true ↔ StartsStatusP lm :=
  statusHere_iff lm

theorem messageTransient_iff (m : String) :
    messageTransient m = true ↔ TransientMessageP allPairs (lowerList m) := by
  unfold messageTransient TransientMessageP
  simp only [Bool.or_eq_true]
  have h1 := startsStatusP_iff (lowerList m)
  have h2 := afterTokenP_iff (lowerList m)
  have h3 := statusPhrase_scan_iff allPairs (by decide) (lowerList m)
  have h4 := networkP_iff (lowerList m)
  have h5 := connectionP_iff (lowerList m)
  have h6 := timeoutP_iff (lowerList m)
  constructor
  · rintro (((((h | h) | h) | h) | h) | h)
    · exact Or.inl (h1.mp h)
    · exact Or.inr (Or.inl (h2.mp h))
    · exact Or.inr (Or.inr (Or.inl (h3.mp h)))
    · exact Or.inr (Or.inr (Or.inr (Or.inl (h4.mp h))))
    · exact Or.inr (Or.inr (Or.inr (Or.inr (Or.inl (h5.mp h)))))
    · exact Or.inr (Or.inr (Or.inr (Or.inr (Or.inr (h6.mp h)))))
  · rintro (h | h | h | h | h | h)
    · exact Or.inl (Or.inl (Or.inl (Or.inl (Or.inl (h1.mpr h)))))
    · exact Or.inl (Or.inl (Or.inl (Or.inl (Or.inr (h2.mpr h)))))
    · exact Or.inl (Or.inl (Or.inl (Or.inr (h3.mpr h))))
    · exact Or.inl (Or.inl (Or.inr (h4.mpr h)))
    · exact Or.inl (Or.inr (h5.mpr h))
    · exact Or.inr (h6.mpr h)

theorem isTransientError_eq (msg : String) (code : Option String) :
    isTransientError ⟨msg, code⟩ =
      ((match code with
        | some c => decide (c ≠ "") && transientCodes.contains c
        | none => false) || messageTransient msg) := rfl

/-- Claim C2 (counterexample).  The claim requires a status code to be
followed by its canonical reason phrase, but the source regex accepts any
status/phrase combination: the message "x 502 service unavailable" is
classified transient by the code although no clause of the claim covers
it. -/
theorem claim2_counterexample :
    isTransientError ⟨"x 502 service unavailable", none⟩ = true ∧
    ¬ ClaimTransient ⟨"x 502 service unavailable", none⟩ := by
  refine ⟨by decide, ?_⟩
  rintro (⟨c, hc, -⟩ | hmsg)
  · cases hc
  · rcases hmsg with h | h | h | h | h | h
    · exact absurd ((startsStatusP_iff _).mpr h) (by decide)
    · exact absurd ((afterTokenP_iff _).mpr h) (by decide)
    · exact absurd ((statusPhrase_scan_iff canonicalPairs (by decide) _).mpr h)
        (by decide)
    · exact absurd ((networkP_iff _).mpr h) (by decide)
    · exact absurd ((connectionP_iff _).mpr h) (by decide)
    · exact absurd ((timeoutP_iff _).mpr h) (by decide)

/-- Claim C2 (amended).  `isTransientError` returns true exactly when the
error's system code is one of the eight listed codes, or its message
matches one of the secondary patterns — where a status code may be followed
by any of the four canonical reason phrases, not only its own. -/
theorem claim2_amended (e : JsError) :
    isTransientError e = true ↔ AmendedTransient e := by
  rcases e with ⟨msg, code⟩
  rw [isTransientError_eq]
  unfold AmendedTransient
  rw [Bool.or_eq_true, messageTransient_iff]
  refine or_congr ?_ Iff.rfl
  rcases code with _ | c
  · simp
  · constructor
    · intro h
      rw [Bool.and_eq_true] at h
      rcases h with ⟨-, hmem⟩
      exact ⟨c, rfl, by simpa using hmem⟩
    · rintro ⟨c2, hc2, hmem⟩
      have hc2b : some c = some c2 := hc2
      injection hc2b with hc2b
      subst hc2b
      rw [Bool.and_eq_true]
      have hne : c ≠ "" := by
        rintro rfl
        revert hmem
        decide
      exact ⟨by simpa using hne, by simpa using hmem⟩

/-! ## Retry executor (client.ts: getRetryConfig, calculateDelay, withRetry;
    config defaults from src/oauth.ts).  The wall clock is modelled
    explicitly: `dur k` is the time attempt `k` takes and sleeps advance the
    clock by exactly the computed delay; `jit k` stands for the rounded
    jitter term `calculateDelay` adds.  The theorems quantify over both, so
    they hold for every timing and every random sequence. -/

/-- Default values of the runtime configuration (src/oauth.ts). -/
def DEFAULT_TIMEOUT_MS : Nat := 1800000

def DEFAULT_MAX_RETRIES : Nat := 3

def DEFAULT_RETRY_DELAY_MS : Nat := 1000

def DEFAULT_CONCURRENCY : Nat := 5

/-- Embedding of `getTimeoutMs`: `parsed` is the result of
`Number.parseInt` on the env string (`none` for unset or NaN). -/
def getTimeoutMs (parsed : Option Int) : Nat :=
  match parsed with
  | some seconds => if 0 < seconds then (seconds * 1000).toNat
                    else DEFAULT_TIMEOUT_MS
  | none => DEFAULT_TIMEOUT_MS

/-- Embedding of `getMaxRetries` (accepts 0 to disable retries). -/
def getMaxRetries (parsed : Option Int) : Nat :=
  match parsed with
  | some retries => if 0 ≤ retries then retries.toNat else DEFAULT_MAX_RETRIES
  | none => DEFAULT_MAX_RETRIES

/-- Embedding of `getRetryDelayMs`. -/
def getRetryDelayMs (parsed : Option Int) : Nat :=
  match parsed with
  | some delay => if 0 < delay then delay.toNat else DEFAULT_RETRY_DELAY_MS
  | none => DEFAULT_RETRY_DELAY_MS

/-- Embedding of `getConcurrencyLimit`. -/
def getConcurrencyLimit (parsed : Option Int) : Nat :=
  match parsed with
  | some limit => if 0 < limit then limit.toNat else DEFAULT_CONCURRENCY
  | none => DEFAULT_CONCURRENCY

/-- The `RetryConfig` record of the source. -/
structure RetryConfig where
  maxRetries : Nat
  baseDelayMs : Nat
  maxDelayMs : Nat
  totalBudgetMs : Nat

/-- Embedding of `getRetryConfig`: reserve 5 s (clamped at 0, which is Nat
subtraction) and cap the delay at `min(10000, retryBudget / 2)` (the JS
division is exact on even inputs; halving is modelled as Nat division). -/
def getRetryConfig (timeoutMs maxRetries baseDelayMs : Nat) : RetryConfig :=
  let retryBudgetMs := timeoutMs - 5000
  { maxRetries := maxRetries
    baseDelayMs := baseDelayMs
    maxDelayMs := min 10000 (retryBudgetMs / 2)
    totalBudgetMs := timeoutMs }

/-- Embedding of `calculateDelay`: exponential backoff capped at
`maxDelayMs`, plus the jitter term `j` = round(capped * 0.25 * (2*rand-1)),
clamped at 0 when negative exceeds the base (Int.toNat). -/
def calculateDelay (attempt : Nat) (cfg : RetryConfig) (j : Int) : Nat :=
  (((min (cfg.baseDelayMs * 2 ^ attempt) cfg.maxDelayMs : Nat) : Int) +
    j).toNat

/-- Observable outcome of a `withRetry` run: the list of attempts (clock
value when the attempt started, and its outcome), and the final result.
`Except.error none` is JavaScript's `throw lastError` with `lastError`
still undefined. -/
structure RetryRun (T : Type) where
  trace : List (Nat × Except JsError T)
  result : Except (Option JsError) T

/-- Embedding of the `withRetry` loop body.  `fuel` counts the remaining
iterations of `for (attempt = 0; attempt <= maxRetries; attempt++)`; the
caller passes `maxRetries + 1 - attempt`, so `fuel = 0` is the loop's exit
condition.  The loop-top break fires when the elapsed time has consumed the
whole budget; after a failure the source retries iff attempts remain, the
error is transient and more than 1 s of budget remains, sleeping
`min(calculateDelay, remaining - 1000)`. -/
def withRetryAux {T : Type} (cfg : RetryConfig) (fn : Nat → Except JsError T)
    (dur : Nat → Nat) (jit : Nat → Int) :
    Nat → Nat → Nat → Option JsError → RetryRun T
  | 0, _, _, lastErr => ⟨[], .error lastErr⟩
  | fuel + 1, attempt, now, lastErr =>
    if cfg.totalBudgetMs ≤ now then ⟨[], .error lastErr⟩
    else
      match fn attempt with
      | .ok v => ⟨[(now, .ok v)], .ok v⟩
      | .error e =>
        let now2 := now + dur attempt
        let remaining := cfg.totalBudgetMs - now2
        if attempt < cfg.maxRetries ∧ isTransientError e = true ∧
            1000 < remaining then
          let delay :=
            min (calculateDelay attempt cfg (jit attempt)) (remaining - 1000)
          let rest :=
            withRetryAux cfg fn dur jit fuel (attempt + 1) (now2 + delay)
              (some e)
          ⟨(now, .error e) :: rest.trace, rest.result⟩
        else ⟨[(now, .error e)], .error (some e)⟩

/-- Embedding of `withRetry fn` with config `cfg`. -/
def withRetry {T : Type} (cfg : RetryConfig) (fn : Nat → Except JsError T)
    (dur : Nat → Nat) (jit : Nat → Int) : RetryRun T :=
  withRetryAux cfg fn dur jit (cfg.maxRetries + 1) 0 0 none

theorem pair_eq_fst {α β : Type} {a c : α} {b d : β}
    (h : (a, b) = (c, d)) : a = c := congrArg Prod.fst h

theorem pair_eq_snd {α β : Type} {a c : α} {b d : β}
    (h : (a, b) = (c, d)) : b = d := congrArg Prod.snd h

/-- Bundle of run facts used to settle claim C3: the attempt bound, that
attempt `i` runs `fn (attempt + i)`, that the surfaced error (resp. value)
is the last attempt's, and that attempt `i + 1` happens iff attempt `i`
failed retryably. -/
def RetrySpec {T : Type} (cfg : RetryConfig) (fn : Nat → Except JsError T)
    (dur : Nat → Nat) (attempt fuel : Nat) (lastErr : Option JsError)
    (run : RetryRun T) : Prop :=
  run.trace.length ≤ fuel ∧
  (∀ i t r, run.trace.get? i = some (t, r) → r = fn (attempt + i)) ∧
  (∀ e, run.result = .error (some e) →
    (run.trace = [] ∧ lastErr = some e) ∨
    ∃ t, run.trace.getLast? = some (t, .error e)) ∧
  (∀ v, run.result = .ok v → ∃ t, run.trace.getLast? = some (t, .ok v)) ∧
  (∀ i t e, run.trace.get? i = some (t, .error e) →
    (i + 1 < run.trace.length ↔
      (attempt + i < cfg.maxRetries ∧ isTransientError e = true ∧
        1000 < cfg.totalBudgetMs - (t + dur (attempt + i)))))

theorem withRetryAux_trace_ne_nil {T : Type} (cfg : RetryConfig)
    (fn : Nat → Except JsError T) (dur : Nat → Nat) (jit : Nat → Int)
    (fuel attempt now : Nat) (lastErr : Option JsError)
    (hfuel : 0 < fuel) (hb : now < cfg.totalBudgetMs) :
    (withRetryAux cfg fn dur jit fuel attempt now lastErr).trace ≠ [] := by
  rcases fuel with _ | fuel
  · omega
  · simp only [withRetryAux]
    rw [if_neg (by omega)]
    cases hfn : fn attempt with
    | ok v => simp [hfn]
    | error e =>
        simp only [hfn]
        split <;> simp

theorem withRetryAux_spec {T : Type} (cfg : RetryConfig)
    (fn : Nat → Except JsError T) (dur : Nat → Nat) (jit : Nat → Int) :
    ∀ fuel, ∀ attempt now : Nat, ∀ lastErr : Option JsError,
      fuel + attempt = cfg.maxRetries + 1 →
      RetrySpec cfg fn dur attempt fuel lastErr
        (withRetryAux cfg fn dur jit fuel attempt now lastErr) := by
  intro fuel
  induction fuel with
  | zero =>
      intro attempt now lastErr hsum
      refine ⟨by simp [withRetryAux], ?_, ?_, ?_, ?_⟩
      · intro i t r h
        simp [withRetryAux] at h
      · intro e h
        have hres : (withRetryAux cfg fn dur jit 0 attempt now
            lastErr).result = .error lastErr := rfl
        rw [hres] at h
        injection h with h
        exact Or.inl ⟨rfl, h⟩
      · intro v h
        simp [withRetryAux] at h
      · intro i t e h
        simp [withRetryAux] at h
  | succ fuel ih =>
      intro attempt now lastErr hsum
      by_cases hb : cfg.totalBudgetMs ≤ now
      · have hrun : withRetryAux cfg fn dur jit (fuel + 1) attempt now lastErr =
            ⟨[], .error lastErr⟩ := by
          simp only [withRetryAux]
          rw [if_pos hb]
        refine ⟨by simp [hrun], ?_, ?_, ?_, ?_⟩
        · intro i t r h
          rw [hrun] at h
          simp at h
        · intro e h
          rw [hrun] at h ⊢
          injection h with h
          exact Or.inl ⟨rfl, h⟩
        · intro v h
          rw [hrun] at h
          cases h
        · intro i t e h
          rw [hrun] at h
          simp at h
      · cases hfn : fn attempt with
        | ok v =>
            have hrun : withRetryAux cfg fn dur jit (fuel + 1) attempt now
                lastErr = ⟨[(now, .ok v)], .ok v⟩ := by
              simp only [withRetryAux]
              rw [if_neg hb]
              simp only [hfn]
            refine ⟨by simp [hrun], ?_, ?_, ?_, ?_⟩
            · intro i t r h
              rw [hrun] at h
              rcases i with _ | i
              · simp only [List.get?_cons_zero, Option.some.injEq] at h
                rw [← pair_eq_snd h]
                show (Except.ok v : Except JsError T) = fn attempt
                exact hfn.symm
              · simp at h
            · intro e h
              rw [hrun] at h
              cases h
            · intro v2 h
              rw [hrun] at h ⊢
              injection h with h
              subst h
              exact ⟨now, rfl⟩
            · intro i t e h
              rw [hrun] at h
              rcases i with _ | i
              · simp at h
              · simp at h
        | error e =>
            by_cases hr : (attempt < cfg.maxRetries ∧
                isTransientError e = true ∧
                1000 < cfg.totalBudgetMs - (now + dur attempt))
            · have hrun : withRetryAux cfg fn dur jit (fuel + 1) attempt now
                  lastErr =
                  ⟨(now, .error e) ::
                    (withRetryAux cfg fn dur jit fuel (attempt + 1)
                      (now + dur attempt +
                        min (calculateDelay attempt cfg (jit attempt))
                          (cfg.totalBudgetMs - (now + dur attempt) - 1000))
                      (some e)).trace,
                    (withRetryAux cfg fn dur jit fuel (attempt + 1)
                      (now + dur attempt +
                        min (calculateDelay attempt cfg (jit attempt))
                          (cfg.totalBudgetMs - (now + dur attempt) - 1000))
                      (some e)).result⟩ := by
                simp only [withRetryAux]
                rw [if_neg hb]
                simp only [hfn]
                rw [if_pos hr]
              have hIH := ih (attempt + 1)
                (now + dur attempt +
                  min (calculateDelay attempt cfg (jit attempt))
                    (cfg.totalBudgetMs - (now + dur attempt) - 1000))
                (some e) (by omega)
              rcases hIH with ⟨ih1, ih2, ih3, ih4, ih5⟩
              have hne : (withRetryAux cfg fn dur jit fuel (attempt + 1)
                  (now + dur attempt +
                    min (calculateDelay attempt cfg (jit attempt))
                      (cfg.totalBudgetMs - (now + dur attempt) - 1000))
                  (some e)).trace ≠ [] := by
                refine withRetryAux_trace_ne_nil cfg fn dur jit fuel _ _ _
                  (by omega) ?_
                have hmin := Nat.min_le_right
                  (calculateDelay attempt cfg (jit attempt))
                  (cfg.totalBudgetMs - (now + dur attempt) - 1000)
                omega
              refine ⟨?_, ?_, ?_, ?_, ?_⟩
              · rw [hrun]
                simp only [List.length_cons]
                omega
              · intro i t r h
                rw [hrun] at h
                rcases i with _ | i
                · simp only [List.get?_cons_zero, Option.some.injEq] at h
                  rw [← pair_eq_snd h]
                  show (Except.error e : Except JsError T) = fn attempt
                  exact hfn.symm
                · simp only [List.get?_cons_succ] at h
                  have := ih2 i t r h
                  rw [this]
                  congr 1
                  omega
              · intro e2 h
                rw [hrun] at h ⊢
                simp only at h
                rcases ih3 e2 h with ⟨hnil, -⟩ | ⟨t, hlast⟩
                · exact absurd hnil hne
                · refine Or.inr ⟨t, ?_⟩
                  rcases hRt : (withRetryAux cfg fn dur jit fuel (attempt + 1)
                      (now + dur attempt +
                        min (calculateDelay attempt cfg (jit attempt))
                          (cfg.totalBudgetMs - (now + dur attempt) - 1000))
                      (some e)).trace with _ | ⟨a, l⟩
                  · exact absurd hRt hne
                  · rw [hRt] at hlast
                    rw [List.getLast?_cons_cons]
                    exact hlast
              · intro v h
                rw [hrun] at h ⊢
                simp only at h
                rcases ih4 v h with ⟨t, hlast⟩
                refine ⟨t, ?_⟩
                rcases hRt : (withRetryAux cfg fn dur jit fuel (attempt + 1)
                    (now + dur attempt +
                      min (calculateDelay attempt cfg (jit attempt))
                        (cfg.totalBudgetMs - (now + dur attempt) - 1000))
                    (some e)).trace with _ | ⟨a, l⟩
                · exact absurd hRt hne
                · rw [hRt] at hlast
                  rw [List.getLast?_cons_cons]
                  exact hlast
              · intro i t e2 h
                rw [hrun] at h ⊢
                rcases i with _ | i
                · simp only [List.get?_cons_zero, Option.some.injEq] at h
                  have ht : now = t := pair_eq_fst h
                  have he : (Except.error e : Except JsError T) =
                      .error e2 := pair_eq_snd h
                  injection he with he
                  subst he
                  subst ht
                  simp only [List.length_cons]
                  constructor
                  · intro _
                    refine ⟨by simpa using hr.1, hr.2.1, ?_⟩
                    have := hr.2.2
                    simpa using this
                  · intro _
                    have hpos : 0 < (withRetryAux cfg fn dur jit fuel
                        (attempt + 1)
                        (now + dur attempt +
                          min (calculateDelay attempt cfg (jit attempt))
                            (cfg.totalBudgetMs - (now + dur attempt) - 1000))
                        (some e)).trace.length :=
                      List.length_pos.mpr hne
                    omega
                · simp only [List.get?_cons_succ, List.length_cons] at h ⊢
                  have hiff := ih5 i t e2 h
                  constructor
                  · intro hlt
                    have : i + 1 <
                        (withRetryAux cfg fn dur jit fuel (attempt + 1)
                          (now + dur attempt +
                            min (calculateDelay attempt cfg (jit attempt))
                              (cfg.totalBudgetMs - (now + dur attempt) - 1000))
                          (some e)).trace.length := by omega
                    have hc := hiff.mp this
                    refine ⟨by omega, hc.2.1, ?_⟩
                    have := hc.2.2
                    have heq : attempt + 1 + i = attempt + (i + 1) := by omega
                    rwa [heq] at this
                  · intro hc
                    have heq : attempt + 1 + i = attempt + (i + 1) := by omega
                    have : attempt + 1 + i < cfg.maxRetries ∧
                        isTransientError e2 = true ∧
                        1000 < cfg.totalBudgetMs - (t + dur (attempt + 1 + i)) := by
                      refine ⟨by omega, hc.2.1, ?_⟩
                      rw [heq]
                      exact hc.2.2
                    have := hiff.mpr this
                    omega
            · have hrun : withRetryAux cfg fn dur jit (fuel + 1) attempt now
                  lastErr = ⟨[(now, .error e)], .error (some e)⟩ := by
                simp only [withRetryAux]
                rw [if_neg hb]
                simp only [hfn]
                rw [if_neg hr]
              refine ⟨by simp [hrun], ?_, ?_, ?_, ?_⟩
              · intro i t r h
                rw [hrun] at h
                rcases i with _ | i
                · simp only [List.get?_cons_zero, Option.some.injEq] at h
                  rw [← pair_eq_snd h]
                  show (Except.error e : Except JsError T) = fn attempt
                  exact hfn.symm
                · simp at h
              · intro e2 h
                rw [hrun] at h ⊢
                have h2 : (Except.error (some e) :
                    Except (Option JsError) T) = .error (some e2) := h
                injection h2 with h2
                injection h2 with h2
                subst h2
                exact Or.inr ⟨now, rfl⟩
              · intro v h
                rw [hrun] at h
                cases h
              · intro i t e2 h
                rw [hrun] at h ⊢
                rcases i with _ | i
                · simp only [List.get?_cons_zero, Option.some.injEq] at h
                  have ht : now = t := pair_eq_fst h
                  have he : (Except.error e : Except JsError T) =
                      .error e2 := pair_eq_snd h
                  injection he with he
                  subst he
                  subst ht
                  simp only [List.length_cons, List.length_nil]
                  constructor
                  · intro hlt
                    omega
                  · intro hc
                    exact absurd ⟨by simpa using hc.1, hc.2.1,
                      by simpa using hc.2.2⟩ hr
                · simp at h

/-- Claim C3 (counterexample).  With the default configuration
(`MCP_MAX_RETRIES` unset gives `maxRetries = 3`) and an operation that
always fails with a transient code, the executor performs 4 attempts —
the loop runs `attempt = 0 .. maxRetries` inclusive — while the claim
allows at most M = 3 attempts in total. -/
theorem claim3_counterexample :
    getMaxRetries none = 3 ∧
    (withRetry (getRetryConfig (getTimeoutMs none) (getMaxRetries none)
        (getRetryDelayMs none))
      (fun _ => (.error ⟨"", some "ECONNRESET"⟩ : Except JsError Unit))
      (fun _ => 0) (fun _ => 0)).trace.length = 4 :=
  ⟨rfl, by decide⟩

/-- Claim C3 (amended).  For every wrapped operation, every timing and
every jitter sequence, the retry executor performs at most `maxRetries + 1`
attempts in total (`maxRetries` defaults to 3); attempt `i` runs the
wrapped thunk at index `i`; when the executor surfaces an error it is the
last attempt's error; and after attempt `i` fails, attempt `i + 1` is
performed if and only if attempts remain (`i < maxRetries`), the failure is
classified transient, and more than 1 s of the time budget remains. -/
theorem claim3_amended {T : Type} (cfg : RetryConfig)
    (fn : Nat → Except JsError T) (dur : Nat → Nat) (jit : Nat → Int) :
    (withRetry cfg fn dur jit).trace.length ≤ cfg.maxRetries + 1 ∧
    (∀ i t r, (withRetry cfg fn dur jit).trace.get? i = some (t, r) →
      r = fn i) ∧
    (∀ e, (withRetry cfg fn dur jit).result = .error (some e) →
      ∃ t, (withRetry cfg fn dur jit).trace.getLast? = some (t, .error e)) ∧
    (∀ i t e, (withRetry cfg fn dur jit).trace.get? i = some (t, .error e) →
      (i + 1 < (withRetry cfg fn dur jit).trace.length ↔
        (i < cfg.maxRetries ∧ isTransientError e = true ∧
          1000 < cfg.totalBudgetMs - (t + dur i)))) := by
  have hspec := withRetryAux_spec cfg fn dur jit (cfg.maxRetries + 1) 0 0
    none (by omega)
  rcases hspec with ⟨h1, h2, h3, h4, h5⟩
  refine ⟨h1, ?_, ?_, ?_⟩
  · intro i t r h
    have := h2 i t r h
    simpa using this
  · intro e h
    rcases h3 e h with ⟨-, hc⟩ | h2b
    · cases hc
    · exact h2b
  · intro i t e h
    have := h5 i t e h
    simpa using this

/-! ## Config hash (src/oauth.ts: getConfigHash).  The source computes
`JSON.stringify(config, Object.keys(config).sort())` and hashes it with
SHA-256, keeping 16 hex chars.  An array replacer (ECMA-262 PropertyList)
makes `stringify` emit, for EVERY object at every depth, only the
properties named in the list, in list order; arrays are not filtered.  The
hash itself is an external primitive and is abstracted as a parameter —
equal inputs give equal hashes for every hash function. -/

/-- A JSON value (the configuration tree as parsed from the config file). -/
inductive Json where
  | null
  | bool (b : Bool)
  | num (n : Int)
  | str (s : String)
  | arr (elems : List Json)
  | obj (fields : List (String × Json))

/-- One hex digit, lower case. -/
def hexDigit (n : Nat) : Char :=
  if n < 10 then Char.ofNat (48 + n) else Char.ofNat (87 + n)

/-- JSON string quoting as `JSON.stringify` performs it. -/
def escapeChar (c : Char) : String :=
  if c = '"' then "\\\""
  else if c = '\\' then "\\\\"
  else if c = '\n' then "\\n"
  else if c = '\r' then "\\r"
  else if c = '\t' then "\\t"
  else if c = '\x08' then "\\b"
  else if c = '\x0c' then "\\f"
  else if c.toNat < 32 then
    String.mk ['\\', 'u', '0', '0', hexDigit (c.toNat / 16),
      hexDigit (c.toNat % 16)]
  else String.singleton c

/-- Quote a JSON string value or key. -/
def quoteJsonString (s : String) : String :=
  "\"" ++ String.join (s.toList.map escapeChar) ++ "\""

/-- First binding of a key in a serialized field list (ECMA `Get`). -/
def assocFind (k : String) : List (String × String) → Option String
  | [] => none
  | (k2, v) :: rest => if k2 = k then some v else assocFind k rest

/-- Emit the PropertyList's keys, in list order, skipping keys absent from
the object (ECMA SerializeJSONObject with PropertyList). -/
def selectProps (props : List String)
    (serialized : List (String × String)) : List String :=
  props.filterMap fun k =>
    (assocFind k serialized).map fun sv => quoteJsonString k ++ ":" ++ sv

mutual
/-- `JSON.stringify(v, props)`: the array replacer filters every object at
every depth to the keys of `props`, in `props` order; array elements are
serialized unfiltered. -/
def stringifyWith (props : List String) : Json → String
  | .null => "null"
  | .bool b => if b then "true" else "false"
  | .num n => toString n
  | .str s => quoteJsonString s
  | .arr xs => "[" ++ String.intercalate "," (stringifyList props xs) ++ "]"
  | .obj fields =>
      "\x7b" ++
        String.intercalate ","
          (selectProps props (stringifyPairs props fields)) ++ "\x7d"

/-- Serialize every array element. -/
def stringifyList (props : List String) : List Json → List String
  | [] => []
  | x :: xs => stringifyWith props x :: stringifyList props xs

/-- Serialize every field value of an object (selection by the
PropertyList happens afterwards in `selectProps`). -/
def stringifyPairs (props : List String) :
    List (String × Json) → List (String × String)
  | [] => []
  | (k, v) :: rest => (k, stringifyWith props v) :: stringifyPairs props rest
end

/-- Code-unit comparison of strings, as `Array.prototype.sort`'s default
comparator orders keys (UTF-16 code units; code points coincide on the
ASCII keys of server records). -/
def charListLe : List Char → List Char → Bool
  | [], _ => true
  | _ :: _, [] => false
  | c :: cs, d :: ds =>
    if c.toNat < d.toNat then true
    else if d.toNat < c.toNat then false
    else charListLe cs ds

/-- String comparison used by the key sort. -/
def strLe (a b : String) : Bool :=
  charListLe a.toList b.toList

/-- Insertion into a sorted list of strings. -/
def insertSorted (x : String) : List String → List String
  | [] => [x]
  | y :: ys => if strLe x y then x :: y :: ys else y :: insertSorted x ys

/-- `Object.keys(config).sort()` as insertion sort. -/
def sortStrings : List String → List String
  | [] => []
  | x :: xs => insertSorted x (sortStrings xs)

/-- `Object.keys` of the top-level value. -/
def topKeys : Json → List String
  | .obj fields => fields.map (fun f => f.1)
  | _ => []

/-- The string `getConfigHash` feeds to SHA-256:
`JSON.stringify(config, Object.keys(config).sort())`. -/
def configHashInput (config : Json) : String :=
  stringifyWith (sortStrings (topKeys config)) config

/-- Embedding of `getConfigHash`, with the SHA-256 hex digest abstracted as
`hashFn`. -/
def getConfigHash (hashFn : String → String) (config : Json) : String :=
  (hashFn (configHashInput config)).take 16

/-- A stdio server record whose env sets FOO=a. -/
def cfgEnvA : Json :=
  Json.obj [("command", Json.str "node"),
    ("env", Json.obj [("FOO", Json.str "a")])]

/-- The same record with FOO=b. -/
def cfgEnvB : Json :=
  Json.obj [("command", Json.str "node"),
    ("env", Json.obj [("FOO", Json.str "b")])]

/-- Claim C4 (code bug).  The replacer array `Object.keys(config).sort()`
holds only the record's top-level keys, and `JSON.stringify` applies an
array replacer to every nested object too: nested keys such as `FOO`
inside `env` are not in the list, so the whole env content is dropped from
the serialization.  Two records differing only in an env entry therefore
serialize identically — to `\x7b"command":"node","env":\x7b\x7d\x7d` —
and get the same hash under every hash function, contradicting the claim
(and §8 Daemon freshness: "Mutating any server-record field flips the
config hash"). -/
theorem claim4_nested_fields_not_hashed :
    cfgEnvA ≠ cfgEnvB ∧
    configHashInput cfgEnvA = configHashInput cfgEnvB ∧
    ∀ hashFn : String → String,
      getConfigHash hashFn cfgEnvA = getConfigHash hashFn cfgEnvB := by
  refine ⟨?_, ?_, ?_⟩
  · simp [cfgEnvA, cfgEnvB]
  · rfl
  · intro hashFn
    rfl

/-! ## Config store (src/oauth.ts: substituteEnvVars,
    substituteEnvVarsInObject, loadConfig, getServerConfig).  The file
    search and `JSON.parse` are I/O; the model starts from the parsed JSON
    value.  The env-var scanner replaces `$\x7bNAME\x7d` (regex
    `\\$\\\x7b([^\x7d]+)\\\x7d`, global) left to right; `fuel` encodes the
    scan's termination (the entry point passes the string length, which
    bounds the number of steps). -/

/-- The opening brace character. -/
def lbrace : Char := Char.ofNat 123

/-- The closing brace character. -/
def rbrace : Char := Char.ofNat 125

/-- The CLI error shapes the config store can raise. -/
inductive CliError where
  | missingEnvVar (vars : List String)
  | configInvalidServer (server : String)
  | configMissingField
  | serverNotFound (server : String) (available : List String)
deriving DecidableEq

/-- Recognize one occurrence of the pattern right after a `$`: an opening
brace, a nonempty run of non-`\x7d` characters, a closing brace.  Returns
the captured name and the remainder. -/
def matchVarRef (s : List Char) : Option (List Char × List Char) :=
  match s with
  | b :: rest2 =>
    if b = lbrace then
      match rest2.takeWhile (fun d => d ≠ rbrace) with
      | [] => none
      | n0 :: nrest =>
        match rest2.drop (n0 :: nrest).length with
        | cl :: after =>
          if cl = rbrace then some (n0 :: nrest, after) else none
        | [] => none
    else none
  | [] => none

/-- Left-to-right scan of the global replace: returns the
referenced-but-unset names (in order) and the substituted characters; an
unset variable expands to nothing.  A failed match at a `$` resumes the
scan one character later, as the regex engine does. -/
def substEnvVarsCore (env : String → Option String) :
    Nat → List Char → List String × List Char
  | 0, _ => ([], [])
  | _ + 1, [] => ([], [])
  | fuel + 1, c :: rest =>
    if c = '$' then
      match matchVarRef rest with
      | some (name, after) =>
        match env (String.mk name) with
        | some v =>
          ((substEnvVarsCore env fuel after).1,
            v.toList ++ (substEnvVarsCore env fuel after).2)
        | none =>
          (String.mk name :: (substEnvVarsCore env fuel after).1,
            (substEnvVarsCore env fuel after).2)
      | none =>
        ((substEnvVarsCore env fuel rest).1,
          c :: (substEnvVarsCore env fuel rest).2)
    else
      ((substEnvVarsCore env fuel rest).1,
        c :: (substEnvVarsCore env fuel rest).2)

/-- Embedding of `substituteEnvVars(value)`: in strict mode any unset
variable aborts with MISSING_ENV_VAR listing this string's unset names; in
lax mode a diagnostic is printed (a side effect outside the model) and the
substituted string is returned. -/
def substituteEnvVars (env : String → Option String) (strict : Bool)
    (s : String) : Except CliError String :=
  if strict ∧ (substEnvVarsCore env s.toList.length s.toList).1 ≠ [] then
    .error (.missingEnvVar (substEnvVarsCore env s.toList.length s.toList).1)
  else .ok (String.mk (substEnvVarsCore env s.toList.length s.toList).2)

mutual
/-- Embedding of `substituteEnvVarsInObject`: substitute inside every
string leaf, recursing through arrays and objects in order; the first
strict failure aborts the traversal (the source throws). -/
def substJson (env : String → Option String) (strict : Bool) :
    Json → Except CliError Json
  | .null => .ok .null
  | .bool b => .ok (.bool b)
  | .num n => .ok (.num n)
  | .str s =>
    match substituteEnvVars env strict s with
    | .error e => .error e
    | .ok s2 => .ok (.str s2)
  | .arr xs =>
    match substJsonList env strict xs with
    | .error e => .error e
    | .ok ys => .ok (.arr ys)
  | .obj fields =>
    match substJsonFields env strict fields with
    | .error e => .error e
    | .ok fs => .ok (.obj fs)

/-- Array elements, left to right. -/
def substJsonList (env : String → Option String) (strict : Bool) :
    List Json → Except CliError (List Json)
  | [] => .ok []
  | x :: xs =>
    match substJson env strict x with
    | .error e => .error e
    | .ok y =>
      match substJsonList env strict xs with
      | .error e => .error e
      | .ok ys => .ok (y :: ys)

/-- Object entries, in order (`Object.entries`). -/
def substJsonFields (env : String → Option String) (strict : Bool) :
    List (String × Json) → Except CliError (List (String × Json))
  | [] => .ok []
  | (k, v) :: rest =>
    match substJson env strict v with
    | .error e => .error e
    | .ok v2 =>
      match substJsonFields env strict rest with
      | .error e => .error e
      | .ok rest2 => .ok ((k, v2) :: rest2)
end

/-- First field with the given name (JavaScript property access on parsed
JSON, where the parser keeps one binding per name). -/
def lookupField (fields : List (String × Json)) (k : String) : Option Json :=
  match fields with
  | [] => none
  | (k2, v) :: rest => if k2 = k then some v else lookupField rest k

/-- Structural validation of the individual server configs: each value
must be an object with exactly one of `command` / `url`. -/
def validateServers : List (String × Json) → Option CliError
  | [] => none
  | (name, sc) :: rest =>
    match sc with
    | .obj fields =>
      let hasCommand := (lookupField fields "command").isSome
      let hasUrl := (lookupField fields "url").isSome
      if !hasCommand && !hasUrl then some (.configInvalidServer name)
      else if hasCommand && hasUrl then some (.configInvalidServer name)
      else validateServers rest
    | _ => some (.configInvalidServer name)

/-- Embedding of `loadConfig` from the parsed JSON onward: require a
`mcpServers` object, validate each server record, and return the
catalogue.  Environment substitution is deferred to `getServerConfig`, as
the source comments explain (fixes issue 20).  (JavaScript's
`typeof x === "object"` also accepts arrays; configs with an array there
are not modelled.) -/
def loadConfig (config : Json) : Except CliError (List (String × Json)) :=
  match config with
  | .obj topFields =>
    match lookupField topFields "mcpServers" with
    | some (.obj servers) =>
      match validateServers servers with
      | some err => .error err
      | none => .ok servers
    | _ => .error .configMissingField
  | _ => .error .configMissingField

/-- Embedding of `getServerConfig`: look the server up and substitute
environment variables lazily, only in the record being handed out. -/
def getServerConfig (catalogue : List (String × Json))
    (env : String → Option String) (strict : Bool) (serverName : String) :
    Except CliError Json :=
  match lookupField catalogue serverName with
  | none => .error (.serverNotFound serverName (catalogue.map (fun f => f.1)))
  | some sc => substJson env strict sc

mutual
/-- Specification-side description of the strict-mode failure payload: the
unset names of the FIRST string leaf (in traversal order: depth first,
array elements and object entries left to right) that references any unset
variable; `[]` when no leaf does.  The source throws at that leaf, so
later unset references in the same record are never reported; the
refinement theorems below compare `substJson` against this description. -/
def firstMissing (env : String → Option String) : Json → List String
  | .null => []
  | .bool _ => []
  | .num _ => []
  | .str s => (substEnvVarsCore env s.toList.length s.toList).1
  | .arr xs => firstMissingList env xs
  | .obj fields => firstMissingFields env fields

/-- First nonempty unset-name list among the elements. -/
def firstMissingList (env : String → Option String) :
    List Json → List String
  | [] => []
  | x :: xs =>
    match firstMissing env x with
    | [] => firstMissingList env xs
    | l => l

/-- First nonempty unset-name list among the entry values. -/
def firstMissingFields (env : String → Option String) :
    List (String × Json) → List String
  | [] => []
  | (_, v) :: rest =>
    match firstMissing env v with
    | [] => firstMissingFields env rest
    | l => l
end

/-- A config whose only server references the unset variable X. -/
def cfgWithEnvRef : Json :=
  Json.obj [("mcpServers", Json.obj
    [("a", Json.obj [("command", Json.str "$\x7bX\x7d")])])]

theorem substEnvVarsCore_missing_unset (env : String → Option String) :
    ∀ fuel s, ∀ v ∈ (substEnvVarsCore env fuel s).1, env v = none := by
  intro fuel
  induction fuel with
  | zero =>
      intro s v hv
      simp [substEnvVarsCore] at hv
  | succ fuel ih =>
      intro s v hv
      rcases s with _ | ⟨c, rest⟩
      · simp [substEnvVarsCore] at hv
      · simp only [substEnvVarsCore] at hv
        by_cases hc : c = '$'
        · rw [if_pos hc] at hv
          rcases hm : matchVarRef rest with _ | ⟨name, after⟩
          · simp only [hm] at hv
            exact ih rest v hv
          · simp only [hm] at hv
            rcases henv : env (String.mk name) with _ | val
            · simp only [henv] at hv
              rcases List.mem_cons.mp hv with rfl | hv2
              · exact henv
              · exact ih after v hv2
            · simp only [henv] at hv
              exact ih after v hv
        · rw [if_neg hc] at hv
          exact ih rest v hv

theorem validateServers_shape :
    ∀ servers err, validateServers servers = some err →
      ∃ name, err = .configInvalidServer name := by
  intro servers
  induction servers with
  | nil =>
      intro err h
      cases h
  | cons p rest ih =>
      intro err h
      rcases p with ⟨name, sc⟩
      rcases sc with _ | b | n | s | xs | fields
      · exact ⟨name, (Option.some.inj h).symm⟩
      · exact ⟨name, (Option.some.inj h).symm⟩
      · exact ⟨name, (Option.some.inj h).symm⟩
      · exact ⟨name, (Option.some.inj h).symm⟩
      · exact ⟨name, (Option.some.inj h).symm⟩
      · simp only [validateServers] at h
        split at h
        · exact ⟨name, (Option.some.inj h).symm⟩
        · split at h
          · exact ⟨name, (Option.some.inj h).symm⟩
          · exact ih err h

theorem substJson_error_spec (env : String → Option String) :
    ∀ n : Nat,
      (∀ j : Json, sizeOf j ≤ n → ∀ strict e,
        substJson env strict j = .error e →
        strict = true ∧ ∃ vs, e = .missingEnvVar vs ∧ vs ≠ [] ∧
          ∀ v ∈ vs, env v = none) ∧
      (∀ xs : List Json, sizeOf xs ≤ n → ∀ strict e,
        substJsonList env strict xs = .error e →
        strict = true ∧ ∃ vs, e = .missingEnvVar vs ∧ vs ≠ [] ∧
          ∀ v ∈ vs, env v = none) ∧
      (∀ fs : List (String × Json), sizeOf fs ≤ n → ∀ strict e,
        substJsonFields env strict fs = .error e →
        strict = true ∧ ∃ vs, e = .missingEnvVar vs ∧ vs ≠ [] ∧
          ∀ v ∈ vs, env v = none) := by
  intro n
  induction n with
  | zero =>
      refine ⟨?_, ?_, ?_⟩
      · intro j hj
        exfalso
        cases j <;> simp at hj
      · intro xs hxs
        exfalso
        cases xs <;> simp at hxs
      · intro fs hfs
        exfalso
        cases fs <;> simp at hfs
  | succ n ih =>
      refine ⟨?_, ?_, ?_⟩
      · intro j hj strict e h
        rcases j with _ | b | m | s | xs | fields
        · cases h
        · cases h
        · cases h
        · simp only [substJson] at h
          rcases hs : substituteEnvVars env strict s with e2 | s2
          · rw [hs] at h
            injection h with h
            subst h
            unfold substituteEnvVars at hs
            split at hs
            · rename_i hcond
              injection hs with hs
              subst hs
              exact ⟨hcond.1, _, rfl, hcond.2,
                fun v hv => substEnvVarsCore_missing_unset env _ _ v hv⟩
            · cases hs
          · rw [hs] at h
            cases h
        · simp only [substJson] at h
          rcases hl : substJsonList env strict xs with e2 | ys
          · rw [hl] at h
            injection h with h
            subst h
            refine ih.2.1 xs ?_ strict e2 hl
            simp at hj
            omega
          · rw [hl] at h
            cases h
        · simp only [substJson] at h
          rcases hf : substJsonFields env strict fields with e2 | fs2
          · rw [hf] at h
            injection h with h
            subst h
            refine ih.2.2 fields ?_ strict e2 hf
            simp at hj
            omega
          · rw [hf] at h
            cases h
      · intro xs hxs strict e h
        rcases xs with _ | ⟨x, rest⟩
        · cases h
        · simp only [substJsonList] at h
          rcases hx : substJson env strict x with e2 | y
          · rw [hx] at h
            injection h with h
            subst h
            refine ih.1 x ?_ strict e2 hx
            simp at hxs
            omega
          · rw [hx] at h
            rcases hrest : substJsonList env strict rest with e2 | ys
            · rw [hrest] at h
              injection h with h
              subst h
              refine ih.2.1 rest ?_ strict e2 hrest
              simp at hxs
              omega
            · rw [hrest] at h
              cases h
      · intro fs hfs strict e h
        rcases fs with _ | ⟨⟨k, v⟩, rest⟩
        · cases h
        · simp only [substJsonFields] at h
          rcases hv : substJson env strict v with e2 | v2
          · rw [hv] at h
            injection h with h
            subst h
            refine ih.1 v ?_ strict e2 hv
            simp at hfs
            omega
          · rw [hv] at h
            rcases hrest : substJsonFields env strict rest with e2 | rest2
            · rw [hrest] at h
              injection h with h
              subst h
              refine ih.2.2 rest ?_ strict e2 hrest
              simp at hfs
              omega
            · rw [hrest] at h
              cases h

theorem substituteEnvVars_strict (env : String → Option String)
    (s : String) :
    ((substEnvVarsCore env s.toList.length s.toList).1 ≠ [] →
      substituteEnvVars env true s =
        .error (.missingEnvVar
          (substEnvVarsCore env s.toList.length s.toList).1)) ∧
    ((substEnvVarsCore env s.toList.length s.toList).1 = [] →
      substituteEnvVars env true s =
        .ok (String.mk (substEnvVarsCore env s.toList.length s.toList).2)) := by
  constructor
  · intro hne
    unfold substituteEnvVars
    rw [if_pos ⟨rfl, hne⟩]
  · intro heq
    unfold substituteEnvVars
    rw [if_neg]
    rintro ⟨-, hne⟩
    exact hne heq

theorem substJson_strict_spec (env : String → Option String) :
    ∀ n : Nat,
      (∀ j : Json, sizeOf j ≤ n →
        (firstMissing env j ≠ [] →
          substJson env true j =
            .error (.missingEnvVar (firstMissing env j))) ∧
        (firstMissing env j = [] → ∃ j2, substJson env true j = .ok j2)) ∧
      (∀ xs : List Json, sizeOf xs ≤ n →
        (firstMissingList env xs ≠ [] →
          substJsonList env true xs =
            .error (.missingEnvVar (firstMissingList env xs))) ∧
        (firstMissingList env xs = [] →
          ∃ ys, substJsonList env true xs = .ok ys)) ∧
      (∀ fs : List (String × Json), sizeOf fs ≤ n →
        (firstMissingFields env fs ≠ [] →
          substJsonFields env true fs =
            .error (.missingEnvVar (firstMissingFields env fs))) ∧
        (firstMissingFields env fs = [] →
          ∃ gs, substJsonFields env true fs = .ok gs)) := by
  intro n
  induction n with
  | zero =>
      refine ⟨?_, ?_, ?_⟩
      · intro j hj
        exfalso
        cases j <;> simp at hj
      · intro xs hxs
        exfalso
        cases xs <;> simp at hxs
      · intro fs hfs
        exfalso
        cases fs <;> simp at hfs
  | succ n ih =>
      refine ⟨?_, ?_, ?_⟩
      · intro j hj
        rcases j with _ | b | m | s | xs | fields
        · exact ⟨fun hne => absurd rfl hne, fun _ => ⟨.null, rfl⟩⟩
        · exact ⟨fun hne => absurd rfl hne, fun _ => ⟨.bool b, rfl⟩⟩
        · exact ⟨fun hne => absurd rfl hne, fun _ => ⟨.num m, rfl⟩⟩
        · constructor
          · intro hne
            simp only [firstMissing] at hne ⊢
            simp only [substJson, (substituteEnvVars_strict env s).1 hne]
          · intro hfm
            simp only [firstMissing] at hfm
            refine ⟨.str (String.mk
              (substEnvVarsCore env s.toList.length s.toList).2), ?_⟩
            simp only [substJson, (substituteEnvVars_strict env s).2 hfm]
        · have hxs : sizeOf xs ≤ n := by
            simp at hj
            omega
          have ihl := ih.2.1 xs hxs
          constructor
          · intro hne
            simp only [firstMissing] at hne ⊢
            simp only [substJson, ihl.1 hne]
          · intro hfm
            simp only [firstMissing] at hfm
            rcases ihl.2 hfm with ⟨ys, hys⟩
            refine ⟨.arr ys, ?_⟩
            simp only [substJson, hys]
        · have hfields : sizeOf fields ≤ n := by
            simp at hj
            omega
          have ihf := ih.2.2 fields hfields
          constructor
          · intro hne
            simp only [firstMissing] at hne ⊢
            simp only [substJson, ihf.1 hne]
          · intro hfm
            simp only [firstMissing] at hfm
            rcases ihf.2 hfm with ⟨gs, hgs⟩
            refine ⟨.obj gs, ?_⟩
            simp only [substJson, hgs]
      · intro xs hxs
        rcases xs with _ | ⟨x, rest⟩
        · exact ⟨fun hne => absurd rfl hne, fun _ => ⟨[], rfl⟩⟩
        · have hx : sizeOf x ≤ n := by
            simp at hxs
            omega
          have hrest : sizeOf rest ≤ n := by
            simp at hxs
            omega
          have ihx := ih.1 x hx
          have ihr := ih.2.1 rest hrest
          constructor
          · intro hne
            simp only [firstMissingList] at hne ⊢
            rcases hfx : firstMissing env x with _ | ⟨v0, vr⟩
            · simp only [hfx] at hne ⊢
              rcases ihx.2 hfx with ⟨y, hy⟩
              simp only [substJsonList, hy, ihr.1 hne]
            · simp only [hfx] at hne ⊢
              have herr := ihx.1 (by rw [hfx]; simp)
              rw [hfx] at herr
              simp only [substJsonList, herr]
          · intro hfm
            simp only [firstMissingList] at hfm
            rcases hfx : firstMissing env x with _ | ⟨v0, vr⟩
            · simp only [hfx] at hfm
              rcases ihx.2 hfx with ⟨y, hy⟩
              rcases ihr.2 hfm with ⟨ys, hys⟩
              refine ⟨y :: ys, ?_⟩
              simp only [substJsonList, hy, hys]
            · simp only [hfx] at hfm
              simp at hfm
      · intro fs hfs
        rcases fs with _ | ⟨⟨k, v⟩, rest⟩
        · exact ⟨fun hne => absurd rfl hne, fun _ => ⟨[], rfl⟩⟩
        · have hv : sizeOf v ≤ n := by
            simp at hfs
            omega
          have hrest : sizeOf rest ≤ n := by
            simp at hfs
            omega
          have ihv := ih.1 v hv
          have ihr := ih.2.2 rest hrest
          constructor
          · intro hne
            simp only [firstMissingFields] at hne ⊢
            rcases hfv : firstMissing env v with _ | ⟨v0, vr⟩
            · simp only [hfv] at hne ⊢
              rcases ihv.2 hfv with ⟨v2, hv2⟩
              simp only [substJsonFields, hv2, ihr.1 hne]
            · simp only [hfv] at hne ⊢
              have herr := ihv.1 (by rw [hfv]; simp)
              rw [hfv] at herr
              simp only [substJsonFields, herr]
          · intro hfm
            simp only [firstMissingFields] at hfm
            rcases hfv : firstMissing env v with _ | ⟨v0, vr⟩
            · simp only [hfv] at hfm
              rcases ihv.2 hfv with ⟨v2, hv2⟩
              rcases ihr.2 hfm with ⟨rest2, hrest2⟩
              refine ⟨(k, v2) :: rest2, ?_⟩
              simp only [substJsonFields, hv2, hrest2]
            · simp only [hfv] at hfm
              simp at hfm

theorem firstMissing_unset (env : String → Option String) (j : Json) :
    ∀ v ∈ firstMissing env j, env v = none := by
  intro v hv
  have hne : firstMissing env j ≠ [] := by
    intro h0
    rw [h0] at hv
    cases hv
  have herr := ((substJson_strict_spec env (sizeOf j)).1 j le_rfl).1 hne
  have hspec := ((substJson_error_spec env (sizeOf j)).1 j le_rfl
    true _ herr).2
  rcases hspec with ⟨vs, hvs, -, hall⟩
  injection hvs with hvs2
  exact hall v (hvs2 ▸ hv)

/-- Claim C7 (counterexample).  With the only server's `command`
referencing the unset variable X and strict mode on, `loadConfig` succeeds
— the claim says the load aborts with MISSING_ENV_VAR.  The error is only
raised later, when `getServerConfig` hands the record out; in lax mode the
variable expands to the empty string. -/
theorem claim7_counterexample :
    loadConfig cfgWithEnvRef =
      .ok [("a", Json.obj [("command", Json.str "$\x7bX\x7d")])] ∧
    getServerConfig [("a", Json.obj [("command", Json.str "$\x7bX\x7d")])]
      (fun _ => none) true "a" = .error (.missingEnvVar ["X"]) ∧
    getServerConfig [("a", Json.obj [("command", Json.str "$\x7bX\x7d")])]
      (fun _ => none) false "a" = .ok (Json.obj [("command", Json.str "")]) :=
  ⟨rfl, rfl, rfl⟩

/-- Claim C7 (amended).  Structural validation happens at load and the
catalogue is returned unsubstituted: `loadConfig` raises only structural
errors (never MISSING_ENV_VAR) and, on success, yields exactly the
`mcpServers` object of the input.  Environment substitution is performed
lazily by `getServerConfig`, before the requested record is handed out.
In strict mode (the default) its errors are either server-not-found or a
MISSING_ENV_VAR carrying exactly `firstMissing` of the requested record —
the unset names referenced by the first offending string leaf in traversal
order, a nonempty list of names all unset in the environment; conversely,
a looked-up record fails with exactly that payload when some leaf
references an unset variable and succeeds when none does (so later unset
references in the same record are never reported).  In lax mode
substitution always succeeds, unset variables expanding to the empty
string. -/
theorem claim7_amended (config : Json) (catalogue : List (String × Json))
    (env : String → Option String) (serverName : String) :
    (∀ e, loadConfig config = .error e →
      e = .configMissingField ∨ ∃ name, e = .configInvalidServer name) ∧
    (∀ l, loadConfig config = .ok l → ∃ topFields,
      config = .obj topFields ∧
        lookupField topFields "mcpServers" = some (.obj l)) ∧
    (∀ e, getServerConfig catalogue env true serverName = .error e →
      e = .serverNotFound serverName (catalogue.map (fun f => f.1)) ∨
      ∃ sc, lookupField catalogue serverName = some sc ∧
        firstMissing env sc ≠ [] ∧
        e = .missingEnvVar (firstMissing env sc) ∧
        ∀ v ∈ firstMissing env sc, env v = none) ∧
    (∀ sc, lookupField catalogue serverName = some sc →
      (firstMissing env sc ≠ [] →
        getServerConfig catalogue env true serverName =
          .error (.missingEnvVar (firstMissing env sc))) ∧
      (firstMissing env sc = [] →
        ∃ j, getServerConfig catalogue env true serverName = .ok j)) ∧
    (∀ sc, lookupField catalogue serverName = some sc →
      getServerConfig catalogue env false serverName = substJson env false sc ∧
      ∃ j, substJson env false sc = .ok j) := by
  refine ⟨?_, ?_, ?_, ?_, ?_⟩
  · intro e h
    rcases config with _ | b | m | s | xs | topFields <;>
      simp only [loadConfig] at h
    · exact Or.inl (Except.error.inj h).symm
    · exact Or.inl (Except.error.inj h).symm
    · exact Or.inl (Except.error.inj h).symm
    · exact Or.inl (Except.error.inj h).symm
    · exact Or.inl (Except.error.inj h).symm
    · rcases hlk : lookupField topFields "mcpServers" with _ | sv
      · simp only [hlk] at h
        exact Or.inl (Except.error.inj h).symm
      · simp only [hlk] at h
        rcases sv with _ | b | m | s2 | xs | servers
        · exact Or.inl (Except.error.inj h).symm
        · exact Or.inl (Except.error.inj h).symm
        · exact Or.inl (Except.error.inj h).symm
        · exact Or.inl (Except.error.inj h).symm
        · exact Or.inl (Except.error.inj h).symm
        · rcases hval : validateServers servers with _ | err
          · simp only [hval] at h
            cases h
          · simp only [hval] at h
            rcases validateServers_shape servers err hval with ⟨name, rfl⟩
            exact Or.inr ⟨name, (Except.error.inj h).symm⟩
  · intro l h
    rcases config with _ | b | m | s | xs | topFields <;>
      simp only [loadConfig] at h
    · cases h
    · cases h
    · cases h
    · cases h
    · cases h
    · rcases hlk : lookupField topFields "mcpServers" with _ | sv
      · simp only [hlk] at h
        cases h
      · simp only [hlk] at h
        rcases sv with _ | b | m | s2 | xs | servers
        · cases h
        · cases h
        · cases h
        · cases h
        · cases h
        · rcases hval : validateServers servers with _ | err
          · simp only [hval] at h
            refine ⟨topFields, rfl, ?_⟩
            rw [hlk, (Except.ok.inj h)]
          · simp only [hval] at h
            cases h
  · intro e h
    unfold getServerConfig at h
    rcases hlk : lookupField catalogue serverName with _ | sc
    · rw [hlk] at h
      exact Or.inl (Except.error.inj h).symm
    · simp only [hlk] at h
      have hspec := (substJson_strict_spec env (sizeOf sc)).1 sc le_rfl
      by_cases hfm : firstMissing env sc = []
      · rcases hspec.2 hfm with ⟨j2, hj2⟩
        rw [hj2] at h
        cases h
      · have herr := hspec.1 hfm
        rw [herr] at h
        injection h with h
        subst h
        exact Or.inr ⟨sc, rfl, hfm, rfl, firstMissing_unset env sc⟩
  · intro sc hlk
    have hspec := (substJson_strict_spec env (sizeOf sc)).1 sc le_rfl
    constructor
    · intro hfm
      unfold getServerConfig
      rw [hlk]
      exact hspec.1 hfm
    · intro hfm
      rcases hspec.2 hfm with ⟨j2, hj2⟩
      refine ⟨j2, ?_⟩
      unfold getServerConfig
      rw [hlk]
      exact hj2
  · intro sc hlk
    have hget : getServerConfig catalogue env false serverName =
        substJson env false sc := by
      unfold getServerConfig
      rw [hlk]
    refine ⟨hget, ?_⟩
    rcases hres : substJson env false sc with e | j
    · exfalso
      have := ((substJson_error_spec env (sizeOf sc)).1 sc le_rfl
        false e hres).1
      cases this
    · exact ⟨j, rfl⟩

/-! ## Daemon client (daemon-client.ts: isDaemonValid, getDaemonConnection;
    daemon.ts/config-schema.ts: readPidFile).  The per-server filesystem
    and process state is explicit: `pidRaw` is the contents of the
    descriptor file `<server>.pid` (none if absent), `socketExists` whether
    `<server>.sock` exists, `alive` the process table.  `parse` stands for
    `JSON.parse` plus the cast to `PidFileContent` (none = the parse threw);
    `hashFn` abstracts the SHA-256 digest inside `getConfigHash`.  Spawning
    is a transition whose outcome (`DAEMON_READY` seen, resulting state,
    ping success) is given by a `SpawnModel`. -/

/-- The daemon descriptor (`PidFileContent`). -/
structure PidInfo where
  pid : Nat
  configHash : String
  startedAt : String

/-- Per-server filesystem and process state as the daemon client sees it. -/
structure DaemonFsState where
  pidRaw : Option String
  socketExists : Bool
  alive : Nat → Bool

/-- Embedding of `readPidFile`: null when the descriptor file is absent and
null when its contents do not parse; it never throws (the read and parse
sit in a try/catch returning null). -/
def readPidFile (parse : String → Option PidInfo)
    (st : DaemonFsState) : Option PidInfo :=
  match st.pidRaw with
  | none => none
  | some content => parse content

/-- Effect of `killProcess pid` on the process table. -/
def killProcess (st : DaemonFsState) (pid : Nat) : DaemonFsState :=
  { st with alive := fun p => if p = pid then false else st.alive p }

/-- Effect of `removePidFile`. -/
def removePidFile (st : DaemonFsState) : DaemonFsState :=
  { st with pidRaw := none }

/-- Effect of `removeSocketFile`. -/
def removeSocketFile (st : DaemonFsState) : DaemonFsState :=
  { st with socketExists := false }

/-- Embedding of `isDaemonValid(serverName, config)` together with its
cleanup side effects, in source order: no descriptor → invalid (no
cleanup); recorded pid dead → remove descriptor and socket; config hash
mismatch → kill, remove descriptor and socket; socket file missing → kill,
remove descriptor; else valid. -/
def isDaemonValid (parse : String → Option PidInfo)
    (hashFn : String → String) (config : Json) (st : DaemonFsState) :
    Bool × DaemonFsState :=
  match readPidFile parse st with
  | none => (false, st)
  | some info =>
    if !st.alive info.pid then
      (false, removeSocketFile (removePidFile st))
    else if info.configHash ≠ getConfigHash hashFn config then
      (false, removeSocketFile (removePidFile (killProcess st info.pid)))
    else if !st.socketExists then
      (false, removePidFile (killProcess st info.pid))
    else (true, st)

/-- Outcome of a `spawnDaemon` attempt: whether `DAEMON_READY` arrived in
time, the state the spawn leaves behind, and whether the post-connection
ping succeeds. -/
structure SpawnModel where
  spawnOk : Bool
  stAfterSpawn : DaemonFsState
  pingOk : Bool

/-- Result of `getDaemonConnection`: a daemon connection (recording whether
an existing daemon was reused or a fresh one spawned), or null for the
direct-connection fallback. -/
inductive DaemonResult where
  | connection (usedExisting : Bool)
  | fallback
deriving DecidableEq

/-- Embedding of `getDaemonConnection(serverName, config)`: validate (with
cleanup), spawn if invalid (fall back when the spawn fails), verify the
socket exists, ping, and hand out the connection. -/
def getDaemonConnection (parse : String → Option PidInfo)
    (hashFn : String → String) (config : Json) (st : DaemonFsState)
    (sm : SpawnModel) : DaemonResult × DaemonFsState :=
  match isDaemonValid parse hashFn config st with
  | (true, st1) =>
    if st1.socketExists then
      (if sm.pingOk then (.connection true, st1) else (.fallback, st1))
    else (.fallback, st1)
  | (false, st1) =>
    if sm.spawnOk then
      if sm.stAfterSpawn.socketExists then
        (if sm.pingOk then (.connection false, sm.stAfterSpawn)
         else (.fallback, sm.stAfterSpawn))
      else (.fallback, sm.stAfterSpawn)
    else (.fallback, st1)

/-- A state with no descriptor file but a leftover socket file. -/
def stStaleSocket : DaemonFsState :=
  { pidRaw := none, socketExists := true, alive := fun _ => false }

/-- A post-spawn state with a running daemon. -/
def stFreshDaemon : DaemonFsState :=
  { pidRaw := some "pid", socketExists := true, alive := fun _ => true }

/-- Claim C5 (counterexample).  When the descriptor file is absent but a
stale socket file exists, `isDaemonValid` is false yet performs no cleanup:
the socket file is still present when the new daemon is spawned,
contradicting the claim that every failed conjunct triggers cleanup
(kill + removal of descriptor and socket) before spawning. -/
theorem claim5_counterexample :
    (isDaemonValid (fun _ => none) id (Json.obj []) stStaleSocket).1 =
      false ∧
    (isDaemonValid (fun _ => none) id (Json.obj [])
      stStaleSocket).2.socketExists = true ∧
    (getDaemonConnection (fun _ => none) id (Json.obj []) stStaleSocket
      ⟨true, stFreshDaemon, true⟩).1 = .connection false :=
  ⟨rfl, rfl, rfl⟩

/-- Claim C5 (amended).  A daemon is valid iff the descriptor file exists
and parses, the recorded pid is alive, the recorded configHash equals the
hash recomputed from the current record, and the socket file exists.  When
a readable descriptor exists but any later conjunct fails, cleanup happens
before any spawn: afterwards the descriptor is gone, the socket file is
gone and the recorded pid is not alive.  When the descriptor is absent or
unreadable the client spawns directly, without removing a possibly
leftover socket file.  In every case a connection to an existing daemon is
handed out only if the daemon was valid, so a stale daemon is never used
to serve a request. -/
theorem claim5_amended (parse : String → Option PidInfo)
    (hashFn : String → String) (config : Json) (st : DaemonFsState)
    (sm : SpawnModel) :
    ((isDaemonValid parse hashFn config st).1 = true ↔
      ∃ info, readPidFile parse st = some info ∧
        st.alive info.pid = true ∧
        info.configHash = getConfigHash hashFn config ∧
        st.socketExists = true) ∧
    (∀ info, readPidFile parse st = some info →
      (isDaemonValid parse hashFn config st).1 = false →
      (isDaemonValid parse hashFn config st).2.pidRaw = none ∧
      (isDaemonValid parse hashFn config st).2.socketExists = false ∧
      (isDaemonValid parse hashFn config st).2.alive info.pid = false) ∧
    (∀ used, (getDaemonConnection parse hashFn config st sm).1 =
        .connection used →
      (used = true ↔ (isDaemonValid parse hashFn config st).1 = true)) := by
  rcases hread : readPidFile parse st with _ | info
  · refine ⟨?_, ?_, ?_⟩
    · simp only [isDaemonValid, hread]
      constructor
      · intro h
        cases h
      · rintro ⟨info, hinfo, -⟩
        cases hinfo
    · intro info hinfo
      cases hinfo
    · intro used hused
      have hval : isDaemonValid parse hashFn config st = (false, st) := by
        simp only [isDaemonValid, hread]
      rw [getDaemonConnection, hval] at hused
      simp only at hused
      constructor
      · intro htrue
        subst htrue
        exfalso
        by_cases hsp : sm.spawnOk
        · rw [if_pos hsp] at hused
          by_cases hso : sm.stAfterSpawn.socketExists
          · rw [if_pos hso] at hused
            by_cases hpg : sm.pingOk
            · rw [if_pos hpg] at hused
              simp at hused
            · rw [if_neg hpg] at hused
              simp at hused
          · rw [if_neg hso] at hused
            simp at hused
        · rw [if_neg hsp] at hused
          simp at hused
      · intro hv
        rw [hval] at hv
        cases hv
  · by_cases halive : st.alive info.pid
    · by_cases hhash : info.configHash = getConfigHash hashFn config
      · by_cases hsock : st.socketExists
        · have hval : isDaemonValid parse hashFn config st = (true, st) := by
            simp only [isDaemonValid, hread]
            rw [if_neg (by simp [halive]), if_neg (by simp [hhash]),
              if_neg (by simp [hsock])]
          refine ⟨?_, ?_, ?_⟩
          · rw [hval]
            refine iff_of_true rfl ?_
            exact ⟨info, rfl, halive, hhash, hsock⟩
          · intro info2 hinfo2 hfalse
            rw [hval] at hfalse
            cases hfalse
          · intro used hused
            rw [getDaemonConnection, hval] at hused
            simp only at hused
            rw [if_pos hsock] at hused
            by_cases hpg : sm.pingOk
            · rw [if_pos hpg] at hused
              simp only [DaemonResult.connection.injEq] at hused
              subst hused
              simp [hval]
            · rw [if_neg hpg] at hused
              simp at hused
        · have hval : isDaemonValid parse hashFn config st =
              (false, removePidFile (killProcess st info.pid)) := by
            simp only [isDaemonValid, hread]
            rw [if_neg (by simp [halive]), if_neg (by simp [hhash]),
              if_pos (by simp [hsock])]
          refine ⟨?_, ?_, ?_⟩
          · rw [hval]
            refine iff_of_false (by simp) ?_
            rintro ⟨info2, hinfo2, -, -, hsock2⟩
            exact hsock hsock2
          · intro info2 hinfo2 hfalse
            injection hinfo2 with hinfo2
            subst hinfo2
            rw [hval]
            refine ⟨rfl, by simpa [removePidFile, killProcess] using hsock, ?_⟩
            simp [removePidFile, killProcess]
          · intro used hused
            rw [getDaemonConnection, hval] at hused
            simp only at hused
            constructor
            · intro htrue
              subst htrue
              exfalso
              by_cases hsp : sm.spawnOk
              · rw [if_pos hsp] at hused
                by_cases hso : sm.stAfterSpawn.socketExists
                · rw [if_pos hso] at hused
                  by_cases hpg : sm.pingOk
                  · rw [if_pos hpg] at hused
                    simp at hused
                  · rw [if_neg hpg] at hused
                    simp at hused
                · rw [if_neg hso] at hused
                  simp at hused
              · rw [if_neg hsp] at hused
                simp at hused
            · intro hv
              rw [hval] at hv
              cases hv
      · have hval : isDaemonValid parse hashFn config st =
            (false, removeSocketFile (removePidFile
              (killProcess st info.pid))) := by
          simp only [isDaemonValid, hread]
          rw [if_neg (by simp [halive]), if_pos (by simp [hhash])]
        refine ⟨?_, ?_, ?_⟩
        · rw [hval]
          refine iff_of_false (by simp) ?_
          rintro ⟨info2, hinfo2, -, hhash2, -⟩
          injection hinfo2 with hinfo2
          subst hinfo2
          exact hhash hhash2
        · intro info2 hinfo2 hfalse
          injection hinfo2 with hinfo2
          subst hinfo2
          rw [hval]
          refine ⟨rfl, rfl, ?_⟩
          simp [removeSocketFile, removePidFile, killProcess]
        · intro used hused
          rw [getDaemonConnection, hval] at hused
          simp only at hused
          constructor
          · intro htrue
            subst htrue
            exfalso
            by_cases hsp : sm.spawnOk
            · rw [if_pos hsp] at hused
              by_cases hso : sm.stAfterSpawn.socketExists
              · rw [if_pos hso] at hused
                by_cases hpg : sm.pingOk
                · rw [if_pos hpg] at hused
                  simp at hused
                · rw [if_neg hpg] at hused
                  simp at hused
              · rw [if_neg hso] at hused
                simp at hused
            · rw [if_neg hsp] at hused
              simp at hused
          · intro hv
            rw [hval] at hv
            cases hv
    · have hval : isDaemonValid parse hashFn config st =
          (false, removeSocketFile (removePidFile st)) := by
        simp only [isDaemonValid, hread]
        rw [if_pos (by simp [halive])]
      refine ⟨?_, ?_, ?_⟩
      · rw [hval]
        refine iff_of_false (by simp) ?_
        rintro ⟨info2, hinfo2, halive2, -, -⟩
        injection hinfo2 with hinfo2
        subst hinfo2
        exact halive halive2
      · intro info2 hinfo2 hfalse
        injection hinfo2 with hinfo2
        subst hinfo2
        rw [hval]
        refine ⟨rfl, rfl, ?_⟩
        simp only [removeSocketFile, removePidFile]
        simpa using halive
      · intro used hused
        rw [getDaemonConnection, hval] at hused
        simp only at hused
        constructor
        · intro htrue
          subst htrue
          exfalso
          by_cases hsp : sm.spawnOk
          · rw [if_pos hsp] at hused
            by_cases hso : sm.stAfterSpawn.socketExists
            · rw [if_pos hso] at hused
              by_cases hpg : sm.pingOk
              · rw [if_pos hpg] at hused
                simp at hused
              · rw [if_neg hpg] at hused
                simp at hused
            · rw [if_neg hso] at hused
              simp at hused
          · rw [if_neg hsp] at hused
            simp at hused
        · intro hv
          rw [hval] at hv
          cases hv

/-- Claim C10.  `readPidFile` is total (it is a Lean function) and returns
null both when the descriptor file is absent and when its contents do not
parse as JSON; a null read makes `isDaemonValid` report invalid without
touching any state, so the daemon client proceeds to respawn — it never
hands out a connection to an existing daemon on a corrupted or missing
descriptor. -/
theorem claim10_readPidFile_total (parse : String → Option PidInfo)
    (hashFn : String → String) (config : Json) (st : DaemonFsState) :
    (st.pidRaw = none → readPidFile parse st = none) ∧
    (∀ c, st.pidRaw = some c → parse c = none →
      readPidFile parse st = none) ∧
    (readPidFile parse st = none →
      (isDaemonValid parse hashFn config st).1 = false ∧
      (isDaemonValid parse hashFn config st).2 = st ∧
      ∀ sm : SpawnModel,
        (getDaemonConnection parse hashFn config st sm).1 ≠
          .connection true) := by
  refine ⟨?_, ?_, ?_⟩
  · intro h
    simp [readPidFile, h]
  · intro c hc hp
    simp [readPidFile, hc, hp]
  · intro hread
    have hval : isDaemonValid parse hashFn config st = (false, st) := by
      simp only [isDaemonValid, hread]
    refine ⟨by rw [hval], by rw [hval], ?_⟩
    intro sm hused
    rw [getDaemonConnection, hval] at hused
    simp only at hused
    by_cases hsp : sm.spawnOk
    · rw [if_pos hsp] at hused
      by_cases hso : sm.stAfterSpawn.socketExists
      · rw [if_pos hso] at hused
        by_cases hpg : sm.pingOk
        · rw [if_pos hpg] at hused
          simp at hused
        · rw [if_neg hpg] at hused
          simp at hused
      · rw [if_neg hso] at hused
        simp at hused
    · rw [if_neg hsp] at hused
      simp at hused

/-! ## Fan-out engine (commands/list.ts: processWithConcurrency,
    fetchServerTools).  The worker pool is modelled operationally: the CLI
    is single-threaded around awaits, so the loop body's atomic actions are
    `const index = currentIndex++` (take), the completion of
    `results[index] = await processor(items[index], index)` (write), and
    the loop exit when `currentIndex >= items.length` (finish).  The
    theorems quantify over every interleaving of the `min(maxConcurrency,
    items.length)` workers. -/

/-- Pointwise update of a function, used for worker states and result
slots. -/
def updFn {A : Type} (g : Nat → A) (i : Nat) (a : A) : Nat → A :=
  fun j => if j = i then a else g j

/-- State of one worker: at the top of its while loop, awaiting the
processor for index `k`, or exited. -/
inductive WStatus where
  | idle
  | busy (k : Nat)
  | done
deriving DecidableEq

/-- Shared state of `processWithConcurrency`: the `currentIndex` counter,
the workers, and the `results` array (`none` = unassigned slot). -/
structure PoolState (R : Type) where
  counter : Nat
  ws : Nat → WStatus
  slots : Nat → Option R

/-- Initial state: counter 0, all workers at the top of their loop, the
freshly allocated `new Array(items.length)`. -/
def poolInit {R : Type} : PoolState R :=
  ⟨0, fun _ => .idle, fun _ => none⟩

/-- Atomic transitions of the pool with `n` items, `W` workers and
per-index result `f`. -/
inductive PoolStep {R : Type} (f : Nat → R) (n W : Nat) :
    PoolState R → PoolState R → Prop where
  | take (w : Nat) (s : PoolState R) :
      w < W → s.ws w = .idle → s.counter < n →
      PoolStep f n W s
        ⟨s.counter + 1, updFn s.ws w (.busy s.counter), s.slots⟩
  | write (w k : Nat) (s : PoolState R) :
      w < W → s.ws w = .busy k →
      PoolStep f n W s
        ⟨s.counter, updFn s.ws w .idle, updFn s.slots k (some (f k))⟩
  | finish (w : Nat) (s : PoolState R) :
      w < W → s.ws w = .idle → n ≤ s.counter →
      PoolStep f n W s ⟨s.counter, updFn s.ws w .done, s.slots⟩

/-- Invariant of the pool: the counter never passes `n`; every taken index
is written or owned by exactly one busy worker; no slot beyond the counter
is written; written slots hold `f` of their index; a worker exits only
after the counter reached `n`. -/
def PoolInv {R : Type} (f : Nat → R) (n W : Nat) (s : PoolState R) : Prop :=
  s.counter ≤ n ∧
  (∀ k, k < s.counter →
    s.slots k = some (f k) ∨ ∃ w, w < W ∧ s.ws w = .busy k) ∧
  (∀ k, s.counter ≤ k → s.slots k = none) ∧
  (∀ k v, s.slots k = some v → v = f k) ∧
  (∀ w, w < W → ∀ k, s.ws w = .busy k → k < s.counter ∧ s.slots k = none) ∧
  (∀ w w2, w < W → w2 < W → ∀ k, s.ws w = .busy k → s.ws w2 = .busy k →
    w = w2) ∧
  ((∃ w, w < W ∧ s.ws w = .done) → n ≤ s.counter)

theorem updFn_same {A : Type} (g : Nat → A) (i : Nat) (a : A) :
    updFn g i a i = a := by
  simp [updFn]

theorem updFn_other {A : Type} (g : Nat → A) (i j : Nat) (a : A)
    (h : j ≠ i) : updFn g i a j = g j := by
  simp [updFn, h]

theorem poolInv_init {R : Type} (f : Nat → R) (n W : Nat) :
    PoolInv f n W (poolInit (R := R)) := by
  refine ⟨by simp [poolInit], ?_, ?_, ?_, ?_, ?_, ?_⟩
  · intro k hk
    simp [poolInit] at hk
  · intro k _
    rfl
  · intro k v hv
    cases hv
  · intro w _ k hw
    cases hw
  · intro w w2 _ _ k hw _
    cases hw
  · rintro ⟨w, -, hw⟩
    cases hw

theorem poolInv_step {R : Type} (f : Nat → R) (n W : Nat)
    (s s2 : PoolState R) (hinv : PoolInv f n W s)
    (hstep : PoolStep f n W s s2) : PoolInv f n W s2 := by
  obtain ⟨i1, i2, i3, i4, i5, i6, i7⟩ := hinv
  cases hstep with
  | take w s hw hidle hlt =>
      dsimp only [PoolInv]
      refine ⟨by omega, ?_, ?_, i4, ?_, ?_, ?_⟩
      · intro k hk
        by_cases hke : k = s.counter
        · subst hke
          exact Or.inr ⟨w, hw, by rw [updFn_same]⟩
        · rcases i2 k (by omega) with h | ⟨w2, hw2, hbusy⟩
          · exact Or.inl h
          · refine Or.inr ⟨w2, hw2, ?_⟩
            by_cases he : w2 = w
            · rw [he, hidle] at hbusy
              cases hbusy
            · rw [updFn_other _ _ _ _ he]
              exact hbusy
      · intro k hk
        exact i3 k (by omega)
      · intro w2 hw2 k hbusy
        by_cases he : w2 = w
        · rw [he, updFn_same] at hbusy
          injection hbusy with hbusy
          rw [← hbusy]
          exact ⟨by omega, i3 s.counter le_rfl⟩
        · rw [updFn_other _ _ _ _ he] at hbusy
          have h2 := i5 w2 hw2 k hbusy
          exact ⟨by omega, h2.2⟩
      · intro w2 w3 hw2 hw3 k hb2 hb3
        by_cases he2 : w2 = w
        · by_cases he3 : w3 = w
          · rw [he2, he3]
          · rw [he2, updFn_same] at hb2
            rw [updFn_other _ _ _ _ he3] at hb3
            injection hb2 with hb2
            rw [← hb2] at hb3
            exact absurd ((i5 w3 hw3 _ hb3).1) (by omega)
        · by_cases he3 : w3 = w
          · rw [he3, updFn_same] at hb3
            rw [updFn_other _ _ _ _ he2] at hb2
            injection hb3 with hb3
            rw [← hb3] at hb2
            exact absurd ((i5 w2 hw2 _ hb2).1) (by omega)
          · rw [updFn_other _ _ _ _ he2] at hb2
            rw [updFn_other _ _ _ _ he3] at hb3
            exact i6 w2 w3 hw2 hw3 k hb2 hb3
      · rintro ⟨w2, hw2, hdone⟩
        by_cases he : w2 = w
        · rw [he, updFn_same] at hdone
          cases hdone
        · rw [updFn_other _ _ _ _ he] at hdone
          have h2 := i7 ⟨w2, hw2, hdone⟩
          omega
  | write w k s hw hbusy =>
      have hk := i5 w hw k hbusy
      dsimp only [PoolInv]
      refine ⟨i1, ?_, ?_, ?_, ?_, ?_, ?_⟩
      · intro j hj
        by_cases hjk : j = k
        · subst hjk
          exact Or.inl (by rw [updFn_same])
        · rcases i2 j hj with h | ⟨w2, hw2, hb2⟩
          · exact Or.inl (by rw [updFn_other _ _ _ _ hjk]; exact h)
          · refine Or.inr ⟨w2, hw2, ?_⟩
            by_cases he : w2 = w
            · rw [he, hbusy] at hb2
              injection hb2 with hb2
              exact absurd hb2.symm hjk
            · rw [updFn_other _ _ _ _ he]
              exact hb2
      · intro j hj
        rw [updFn_other _ _ _ _ (by omega)]
        exact i3 j hj
      · intro j v hv
        by_cases hjk : j = k
        · subst hjk
          rw [updFn_same] at hv
          injection hv with hv
          exact hv.symm
        · rw [updFn_other _ _ _ _ hjk] at hv
          exact i4 j v hv
      · intro w2 hw2 j hb2
        by_cases he : w2 = w
        · rw [he, updFn_same] at hb2
          cases hb2
        · rw [updFn_other _ _ _ _ he] at hb2
          have hj := i5 w2 hw2 j hb2
          refine ⟨hj.1, ?_⟩
          by_cases hjk : j = k
          · subst hjk
            exact absurd (i6 w2 w hw2 hw j hb2 hbusy) he
          · rw [updFn_other _ _ _ _ hjk]
            exact hj.2
      · intro w2 w3 hw2 hw3 j hb2 hb3
        by_cases he2 : w2 = w
        · rw [he2, updFn_same] at hb2
          cases hb2
        · by_cases he3 : w3 = w
          · rw [he3, updFn_same] at hb3
            cases hb3
          · rw [updFn_other _ _ _ _ he2] at hb2
            rw [updFn_other _ _ _ _ he3] at hb3
            exact i6 w2 w3 hw2 hw3 j hb2 hb3
      · rintro ⟨w2, hw2, hdone⟩
        by_cases he : w2 = w
        · rw [he, updFn_same] at hdone
          cases hdone
        · rw [updFn_other _ _ _ _ he] at hdone
          exact i7 ⟨w2, hw2, hdone⟩
  | finish w s hw hidle hge =>
      dsimp only [PoolInv]
      refine ⟨i1, ?_, i3, i4, ?_, ?_, ?_⟩
      · intro k hk
        rcases i2 k hk with h | ⟨w2, hw2, hb2⟩
        · exact Or.inl h
        · refine Or.inr ⟨w2, hw2, ?_⟩
          by_cases he : w2 = w
          · rw [he, hidle] at hb2
            cases hb2
          · rw [updFn_other _ _ _ _ he]
            exact hb2
      · intro w2 hw2 k hb2
        by_cases he : w2 = w
        · rw [he, updFn_same] at hb2
          cases hb2
        · rw [updFn_other _ _ _ _ he] at hb2
          exact i5 w2 hw2 k hb2
      · intro w2 w3 hw2 hw3 k hb2 hb3
        by_cases he2 : w2 = w
        · rw [he2, updFn_same] at hb2
          cases hb2
        · by_cases he3 : w3 = w
          · rw [he3, updFn_same] at hb3
            cases hb3
          · rw [updFn_other _ _ _ _ he2] at hb2
            rw [updFn_other _ _ _ _ he3] at hb3
            exact i6 w2 w3 hw2 hw3 k hb2 hb3
      · intro _
        exact hge

theorem poolInv_reach {R : Type} (f : Nat → R) (n W : Nat)
    (s : PoolState R)
    (h : Relation.ReflTransGen (PoolStep f n W) poolInit s) :
    PoolInv f n W s := by
  induction h with
  | refl => exact poolInv_init f n W
  | tail hsteps hstep ih => exact poolInv_step f n W _ _ ih hstep

theorem pool_terminal {R : Type} (f : Nat → R) (n W : Nat)
    (hW : 0 < W) (s : PoolState R)
    (hreach : Relation.ReflTransGen (PoolStep f n W) poolInit s)
    (hdone : ∀ w, w < W → s.ws w = .done) :
    s.counter = n ∧ (∀ k, k < n → s.slots k = some (f k)) ∧
    (∀ k, n ≤ k → s.slots k = none) := by
  obtain ⟨i1, i2, i3, i4, i5, i6, i7⟩ := poolInv_reach f n W s hreach
  have hcnt : s.counter = n := by
    have := i7 ⟨0, hW, hdone 0 hW⟩
    omega
  subst hcnt
  refine ⟨rfl, ?_, i3⟩
  intro k hk
  rcases i2 k hk with h | ⟨w, hw, hbusy⟩
  · exact h
  · rw [hdone w hw] at hbusy
    cases hbusy

/-- A per-server result row of the `list` command
(`ServerWithTools` in commands/list.ts). -/
structure ServerWithTools where
  name : String
  tools : List ToolInfo
  instructions : Option String
  error : Option String

/-- Embedding of `fetchServerTools`: the fallible part (getServerConfig,
getConnection, listTools, getInstructions) is abstracted as `fetch`; the
try/catch turns a failure into an error row with an empty tool list, so
the function is total. -/
def fetchServerTools
    (fetch : String → Except String (List ToolInfo × Option String))
    (serverName : String) : ServerWithTools :=
  match fetch serverName with
  | .ok (tools, instructions) =>
      { name := serverName, tools := tools, instructions := instructions
        error := none }
  | .error msg =>
      { name := serverName, tools := [], instructions := none
        error := some msg }

theorem getConcurrencyLimit_pos (parsed : Option Int) :
    0 < getConcurrencyLimit parsed := by
  match parsed with
  | none => decide
  | some l =>
      dsimp only [getConcurrencyLimit]
      split
      · omega
      · decide

/-- **C6.** For every list of server names, every per-server fetch
behaviour, every concurrency setting and every interleaving of the worker
pool (any run of `processWithConcurrency` from the initial state to a
state where all `min(maxConcurrency, items.length)` workers have exited):
the counter has reached exactly `N`; slot `k` holds the result for the
`k`-th input name for every `k < N` (output order equals input order) and
nothing else is written; a position whose fetch fails carries the error
message with an empty tool list and no exception propagates; a position
whose fetch succeeds carries its tool list and instructions. -/
theorem claim6_fanout
    (names : List String)
    (fetch : String → Except String (List ToolInfo × Option String))
    (parsed : Option Int)
    (s : PoolState ServerWithTools)
    (hreach : Relation.ReflTransGen
      (PoolStep (fun k => fetchServerTools fetch (names.getD k ""))
        names.length (min (getConcurrencyLimit parsed) names.length))
      poolInit s)
    (hne : names ≠ [])
    (hdone : ∀ w, w < min (getConcurrencyLimit parsed) names.length →
      s.ws w = .done) :
    s.counter = names.length ∧
    (∀ k, k < names.length →
      s.slots k = some (fetchServerTools fetch (names.getD k ""))) ∧
    (∀ k, names.length ≤ k → s.slots k = none) ∧
    (∀ k msg, k < names.length → fetch (names.getD k "") = .error msg →
      s.slots k = some
        { name := names.getD k "", tools := [], instructions := none
          error := some msg }) ∧
    (∀ k tools ins, k < names.length →
      fetch (names.getD k "") = .ok (tools, ins) →
      s.slots k = some
        { name := names.getD k "", tools := tools, instructions := ins
          error := none }) := by
  have hW : 0 < min (getConcurrencyLimit parsed) names.length := by
    have h1 := getConcurrencyLimit_pos parsed
    have h2 : 0 < names.length := List.length_pos.mpr hne
    omega
  obtain ⟨h1, h2, h3⟩ := pool_terminal _ _ _ hW s hreach hdone
  refine ⟨h1, h2, h3, ?_, ?_⟩
  · intro k msg hk hf
    rw [h2 k hk]
    simp only [fetchServerTools, hf]
  · intro k tools ins hk hf
    rw [h2 k hk]
    simp only [fetchServerTools, hf]

/-- The fetch behaviour of the C6 witness run: every server fails. -/
def poolWitnessFetch : String → Except String (List ToolInfo × Option String) :=
  fun _ => .error "boom"

/-- Intermediate states of the single-worker witness run. -/
def poolS1 : PoolState ServerWithTools :=
  ⟨1, updFn (fun _ => .idle) 0 (.busy 0), fun _ => none⟩

def poolS2 : PoolState ServerWithTools :=
  ⟨1, updFn poolS1.ws 0 .idle,
    updFn poolS1.slots 0
      (some (fetchServerTools poolWitnessFetch (["a"].getD 0 "")))⟩

def poolS3 : PoolState ServerWithTools :=
  ⟨1, updFn poolS2.ws 0 .done, poolS2.slots⟩

theorem claim6_fanout_witness :
    poolS3.counter = 1 ∧
    poolS3.slots 0 = some
      { name := "a", tools := [], instructions := none
        error := some "boom" } := by
  have h := claim6_fanout ["a"] poolWitnessFetch none poolS3
    (Relation.ReflTransGen.head
      (PoolStep.take 0 poolInit (by decide) rfl (by decide))
      (Relation.ReflTransGen.head
        (PoolStep.write 0 0 poolS1 (by decide) rfl)
        (Relation.ReflTransGen.head
          (PoolStep.finish 0 poolS2 (by decide) rfl (by decide))
          Relation.ReflTransGen.refl)))
    (by simp)
    (fun w hw => by
      have hW : min (getConcurrencyLimit none) (List.length ["a"]) = 1 := by
        decide
      rw [hW] at hw
      have hw0 : w = 0 := by omega
      subst hw0
      rfl)
  exact ⟨h.1, h.2.2.2.1 0 "boom" (by decide) rfl⟩

/-! ## OAuth callback server (oauth/callback-server.ts,
    startCallbackServer).  The request handler is embedded as a pure
    function from the request URL to a status code and a callback action.
    URL parsing is modelled for plain URLs (path, then an optional query of
    &-separated key=value pairs); percent-decoding is not modelled, and no
    statement below depends on it. -/

/-- The path part of a request URL: everything before the first question
mark. -/
def pathOf (url : String) : String :=
  String.mk (url.data.takeWhile (fun c => c ≠ '?'))

/-- The query part of a request URL: everything after the first question
mark (empty when there is none). -/
def queryOf (url : String) : String :=
  String.mk ((url.data.dropWhile (fun c => c ≠ '?')).drop 1)

/-- Split a character list at every ampersand. -/
def splitOnAmp (cs : List Char) : List (List Char) :=
  match cs with
  | [] => [[]]
  | c :: rest =>
      let r := splitOnAmp rest
      if c = '&' then [] :: r
      else
        match r with
        | [] => [[c]]
        | h :: t => (c :: h) :: t

/-- Split one pair at the first equals sign; a pair without one has the
empty value, as in URLSearchParams. -/
def splitPair (cs : List Char) : String × String :=
  (String.mk (cs.takeWhile (fun c => c ≠ '=')),
   String.mk ((cs.dropWhile (fun c => c ≠ '=')).drop 1))

/-- Embedding of `parsedUrl.searchParams.get(name)`: the first pair whose
key is `name`, or `none`. -/
def getParam (name : String) (query : String) : Option String :=
  ((splitOnAmp query.data).filterMap (fun p =>
    if (splitPair p).1 = name then some (splitPair p).2 else none)).head?

/-- JS truthiness of a `string | null` value: `null` and the empty string
are falsy. -/
def truthy (v : Option String) : Bool :=
  match v with
  | none => false
  | some s => decide (s ≠ "")

/-- What the handler does to the pending callback promise. -/
inductive CallbackAction where
  | resolveCode (code : String)
  | rejectErr (message : String)
  | nothing
deriving DecidableEq

/-- The observable outcome of one request: HTTP status plus callback
action. -/
structure HttpResponse where
  status : Nat
  action : CallbackAction
deriving DecidableEq

/-- Embedding of the request handler of `startCallbackServer`: an exact
string comparison against "/favicon.ico" (no other path check exists in
the source), then dispatch on the truthiness of the `code`, `error` and
`error_description` query parameters. -/
def handleCallbackRequest (url : String) : HttpResponse :=
  if url = "/favicon.ico" then ⟨404, .nothing⟩
  else
    let code := getParam "code" (queryOf url)
    let err := getParam "error" (queryOf url)
    let errorDescription := getParam "error_description" (queryOf url)
    if truthy code then ⟨200, .resolveCode (code.getD "")⟩
    else if truthy err then
      ⟨400, .rejectErr ("OAuth authorization failed: " ++
        (if truthy errorDescription then errorDescription.getD ""
         else err.getD ""))⟩
    else ⟨400, .nothing⟩

theorem handleCallbackRequest_eq (u : String) (hu : u ≠ "/favicon.ico") :
    handleCallbackRequest u =
      (if truthy (getParam "code" (queryOf u)) then
        ⟨200, .resolveCode ((getParam "code" (queryOf u)).getD "")⟩
       else if truthy (getParam "error" (queryOf u)) then
        ⟨400, .rejectErr ("OAuth authorization failed: " ++
          (if truthy (getParam "error_description" (queryOf u)) then
            (getParam "error_description" (queryOf u)).getD ""
           else (getParam "error" (queryOf u)).getD ""))⟩
       else ⟨400, .nothing⟩) := by
  unfold handleCallbackRequest
  rw [if_neg hu]

/-- **C8, counterexample.** The claim says every path other than
"/callback" and "/favicon.ico" gets 404.  The handler never inspects the
path except for the exact-string favicon check: "/other" gets 400, not
404, and "/other?code=abc" even gets 200 and resolves the pending
callback with the code. -/
theorem claim8_counterexample :
    (handleCallbackRequest "/other").status = 400 ∧
    (handleCallbackRequest "/other").status ≠ 404 ∧
    handleCallbackRequest "/other?code=abc" =
      ⟨200, .resolveCode "abc"⟩ := by
  refine ⟨rfl, by decide, rfl⟩

/-- **C8, amended.** The exact URL "/favicon.ico" gets 404 with no
callback action.  Every other request URL is dispatched on its query
alone: a nonempty `code` parameter gets 200 and resolves the callback
with that code; otherwise a nonempty `error` parameter gets 400 and
rejects the callback with `error_description` if nonempty, else `error`;
otherwise 400 with no action.  In particular the response never depends
on the path (third conjunct), so there is no 404 for unknown paths. -/
theorem claim8_amended :
    (handleCallbackRequest "/favicon.ico" = ⟨404, .nothing⟩) ∧
    (∀ u, u ≠ "/favicon.ico" →
      (∀ c, getParam "code" (queryOf u) = some c → c ≠ "" →
        handleCallbackRequest u = ⟨200, .resolveCode c⟩) ∧
      (truthy (getParam "code" (queryOf u)) = false →
        ∀ e, getParam "error" (queryOf u) = some e → e ≠ "" →
        handleCallbackRequest u = ⟨400, .rejectErr
          ("OAuth authorization failed: " ++
            (if truthy (getParam "error_description" (queryOf u)) then
              (getParam "error_description" (queryOf u)).getD ""
             else e))⟩) ∧
      (truthy (getParam "code" (queryOf u)) = false →
        truthy (getParam "error" (queryOf u)) = false →
        handleCallbackRequest u = ⟨400, .nothing⟩)) ∧
    (∀ u1 u2, u1 ≠ "/favicon.ico" → u2 ≠ "/favicon.ico" →
      queryOf u1 = queryOf u2 →
      handleCallbackRequest u1 = handleCallbackRequest u2) := by
  refine ⟨rfl, ?_, ?_⟩
  · intro u hu
    refine ⟨?_, ?_, ?_⟩
    · intro c hc hcne
      rw [handleCallbackRequest_eq u hu, hc]
      simp [truthy, hcne]
    · intro hcf e he hene
      rw [handleCallbackRequest_eq u hu, hcf, he]
      simp [truthy, hene]
    · intro hcf hef
      rw [handleCallbackRequest_eq u hu, hcf, hef]
      simp
  · intro u1 u2 h1 h2 hq
    rw [handleCallbackRequest_eq u1 h1, handleCallbackRequest_eq u2 h2, hq]

end McpCli
